import Mathlib

/-!
# Left-leaning red-black tree of `rbtree.c`

A shallow embedding of `rb_search`, `is_red`, `rotate_left`, `rotate_right`,
`color_flip` and `rb_insert`, followed by the properties proved about them.

* A `struct rbtree *` is a value of the inductive type `rbtree`: `nil` is the
  `NULL` pointer, `node left key data red right` an allocated node together
  with everything it owns.  Every node is referenced from exactly one place,
  so the in-place updates of the C code are value-to-value functions.
* `uint64_t` keys are natural numbers.  The code only compares keys
  (`==`, `>`, `<`), it never does arithmetic on them, so every statement
  below holds in particular for all keys below `2 ^ 64`.
* The payload `void *data` is never dereferenced; it is modelled as the
  pointer's numeric value.
-/

namespace RBTree

/-- The C type `struct rbtree`, seen through the pointer to it. -/
inductive rbtree where
  | nil : rbtree
  | node (left : rbtree) (key : Nat) (data : Nat) (red : Bool) (right : rbtree) : rbtree
  deriving DecidableEq

open rbtree

/-- Field read `h->left` (`nil` for a null `h`, where C would fault). -/
def left : rbtree → rbtree
  | nil => nil
  | node l _ _ _ _ => l

/-- Field read `h->right` (`nil` for a null `h`, where C would fault). -/
def right : rbtree → rbtree
  | nil => nil
  | node _ _ _ _ r => r

/-- Field read `h->key` (`0` for a null `h`, where C would fault). -/
def key_of : rbtree → Nat
  | nil => 0
  | node _ k _ _ _ => k

/-- Field read `h->data` (`0` for a null `h`, where C would fault). -/
def data_of : rbtree → Nat
  | nil => 0
  | node _ _ d _ _ => d

/-- Field read `h->red` (`false` for a null `h`, where C would fault). -/
def red_of : rbtree → Bool
  | nil => false
  | node _ _ _ c _ => c

/-- Field write `h->left = x`. -/
def set_left : rbtree → rbtree → rbtree
  | nil, _ => nil
  | node _ k d c r, x => node x k d c r

/-- Field write `h->right = x`. -/
def set_right : rbtree → rbtree → rbtree
  | nil, _ => nil
  | node l k d c _, x => node l k d c x

/-- Field write `h->key = k`. -/
def set_key : rbtree → Nat → rbtree
  | nil, _ => nil
  | node l _ d c r, k => node l k d c r

/-- Field write `h->data = d`. -/
def set_data : rbtree → Nat → rbtree
  | nil, _ => nil
  | node l k _ c r, d => node l k d c r

/-- Field write `h->red = b`. -/
def set_red : rbtree → Bool → rbtree
  | nil, _ => nil
  | node l k d _ r, b => node l k d b r

/-- Modelled from the spec: `nasm_malloc` (declared in `nasmlib.h`, which is not
part of the sources).  `rb_insert` assigns only `key`, `data` and `red` of the
block it gets; the spec calls the result "a new red leaf node", so the block
is taken to come back with both child links absent. -/
def nasm_malloc : rbtree := node nil 0 0 false nil

/-- The loop of `rb_search`, with the loop variables `best` and `tree`. -/
def rb_search_loop (best : Option rbtree) : rbtree → Nat → Option rbtree
  | nil, _ => best
  | node l k d c r, key =>
    if k = key then some (node l k d c r)
    else if k > key then rb_search_loop best l key
    else rb_search_loop (some (node l k d c r)) r key

/-- The function `rb_search`: `none` is the `NULL` result, `some n` a pointer
to the node `n` (given with its subtree). -/
def rb_search (tree : rbtree) (key : Nat) : Option rbtree :=
  rb_search_loop none tree key

/-- The function `is_red`: `h && h->red`. -/
def is_red : rbtree → Bool
  | nil => false
  | node _ _ _ c _ => c

/-- The function `rotate_left`.  With `h->right` null the C code dereferences
a null pointer; the embedding returns `h` unchanged there. -/
def rotate_left : rbtree → rbtree
  | node a k d c (node b k2 d2 _ e) => node (node a k d true b) k2 d2 c e
  | h => h

/-- The function `rotate_right`.  With `h->left` null the C code dereferences
a null pointer; the embedding returns `h` unchanged there. -/
def rotate_right : rbtree → rbtree
  | node (node a k2 d2 _ b) k d c e => node a k2 d2 c (node b k d true e)
  | h => h

/-- The function `color_flip`.  A null child, whose colour C could not
negate, stays null. -/
def color_flip : rbtree → rbtree
  | nil => nil
  | node l k d c r => node (set_red l (!red_of l)) k d (!c) (set_red r (!red_of r))

/-- Number of nodes of a tree. -/
def size : rbtree → Nat
  | nil => 0
  | node l _ _ _ r => size l + 1 + size r

/-- The function `rb_insert`.  The recursive call is on a child of the node
after the optional `color_flip`, which has as many nodes as the child had
before. -/
def rb_insert (tree : rbtree) (key : Nat) (data : Nat) : rbtree :=
  match tree with
  | nil => set_red (set_data (set_key nasm_malloc key) data) true
  | node l k d c r =>
    let tree1 :=
      if is_red (left (node l k d c r)) && is_red (right (node l k d c r))
      then color_flip (node l k d c r) else node l k d c r
    let tree2 :=
      if key < key_of tree1 then set_left tree1 (rb_insert (left tree1) key data)
      else set_right tree1 (rb_insert (right tree1) key data)
    let tree3 := if is_red (right tree2) then rotate_left tree2 else tree2
    if is_red (left tree3) && is_red (left (left tree3)) then rotate_right tree3 else tree3
termination_by size tree
decreasing_by
  all_goals
    have hs : ∀ (t : rbtree) (b : Bool), size (set_red t b) = size t := by
      intro t b; cases t <;> rfl
    split <;> simp [color_flip, left, right, size, hs] <;> omega

/-- The tree obtained from the empty tree by inserting the given
`(key, data)` pairs one after the other, the caller storing the returned root
each time. -/
def build (ops : List (Nat × Nat)) : rbtree :=
  ops.foldl (fun t p => rb_insert t p.1 p.2) nil

/-- In-order traversal: the `(key, data)` pairs from left to right. -/
def inorder : rbtree → List (Nat × Nat)
  | nil => []
  | node l k d _ r => inorder l ++ (k, d) :: inorder r

/-- The keys of a tree in in-order. -/
def keys (t : rbtree) : List Nat := (inorder t).map Prod.fst

/-- All nodes of a tree, each given with the subtree it roots (pre-order). -/
def nodes : rbtree → List rbtree
  | nil => []
  | node l k d c r => node l k d c r :: (nodes l ++ nodes r)

/-- Height: the number of nodes on the longest path from the root down to an
empty slot. -/
def height : rbtree → Nat
  | nil => 0
  | node l _ _ _ r => 1 + max (height l) (height r)

/-- For every path from the link holding `t` down to an empty slot, the number
of black nodes on it (`t` itself included when it is black). -/
def black_counts : rbtree → List Nat
  | nil => [0]
  | node l _ _ c r =>
    (black_counts l ++ black_counts r).map (fun n => n + (if c then 0 else 1))

/-- For every path from the node `n` down to an empty child slot, the number
of black links on it, that is of black nodes strictly below `n`. -/
def black_links (n : rbtree) : List Nat :=
  black_counts (left n) ++ black_counts (right n)

/-- Lines 76-77 of `rb_insert`: the colour flip of a node whose children are
both red. -/
def flip_step (t : rbtree) : rbtree :=
  if is_red (left t) && is_red (right t) then color_flip t else t

/-- Lines 84-88 of `rb_insert`: the two rotations on the way up. -/
def fix_step (t : rbtree) : rbtree :=
  let t3 := if is_red (right t) then rotate_left t else t
  if is_red (left t3) && is_red (left (left t3)) then rotate_right t3 else t3

/-- Black height along the leftmost path, the node itself included. -/
def bh : rbtree → Nat
  | nil => 0
  | node l _ _ c _ => bh l + (if c then 0 else 1)

/-- Valid subtree below the root: at every node both children are valid and
of equal black height, a red right child comes with a red left child, and a
red node has no red child. -/
def RB : rbtree → Prop
  | nil => True
  | node l _ _ c r =>
    (RB l ∧ RB r ∧ bh l = bh r ∧ (is_red r = true → is_red l = true)) ∧
      (c = true → is_red l = false ∧ is_red r = false)

/-- State of a subtree returned by `rb_insert` to its caller: as `RB`, but a red
root may have a red left child. -/
def ARB : rbtree → Prop
  | nil => True
  | node l _ _ c r =>
    (RB l ∧ RB r ∧ bh l = bh r ∧ (is_red r = true → is_red l = true)) ∧
      (c = true → is_red r = false)

/-- Valid whole tree: as `RB`, except that the colour of the root is not
constrained (the root may be red and have red children). -/
def Top : rbtree → Prop
  | nil => True
  | node l _ _ _ r => RB l ∧ RB r ∧ bh l = bh r ∧ (is_red r = true → is_red l = true)

/-- Modelled from the spec: `nasm_free` (declared in `nasmlib.h`, which is not
part of the sources) releases the block it is given.  The release is recorded
by appending the node to a log of released nodes. -/
def nasm_free (tree : rbtree) (log : List rbtree) : List rbtree := log ++ [tree]

/-- The function `rb_free`, threading the log of released nodes: left
subtree, right subtree, then the node itself; nothing for a null tree. -/
def rb_free : rbtree → List rbtree → List rbtree
  | nil, log => log
  | node l k d c r, log => nasm_free (node l k d c r) (rb_free r (rb_free l log))

/-- Post-order listing of the nodes, as the specification words the order of
destruction: all of the left subtree, all of the right subtree, the node. -/
def postorder : rbtree → List rbtree
  | nil => []
  | node l k d c r => postorder l ++ postorder r ++ [node l k d c r]

/-- The function `rotate_left` with its null dereference made explicit:
`none` when `h` or `h->right` is null. -/
def rotate_left_checked : rbtree → Option rbtree
  | node a k d c (node b k2 d2 _ e) => some (node (node a k d true b) k2 d2 c e)
  | _ => none

/-- The function `rotate_right` with its null dereference made explicit:
`none` when `h` or `h->left` is null. -/
def rotate_right_checked : rbtree → Option rbtree
  | node (node a k2 d2 _ b) k d c e => some (node a k2 d2 c (node b k d true e))
  | _ => none

/-- The function `color_flip` with its null dereferences made explicit:
`none` when `h`, `h->left` or `h->right` is null. -/
def color_flip_checked : rbtree → Option rbtree
  | node (node a k1 d1 c1 b) k d c (node e k2 d2 c2 f) =>
    some (node (node a k1 d1 (!c1) b) k d (!c) (node e k2 d2 (!c2) f))
  | _ => none

set_option linter.unusedVariables false in
/-- The function `rb_insert` over the checked helpers: `none` as soon as a
helper is applied to a node it would fault on. -/
def rb_insert_checked (tree : rbtree) (key : Nat) (data : Nat) : Option rbtree :=
  match tree with
  | nil => some (set_red (set_data (set_key nasm_malloc key) data) true)
  | node l k d c r =>
    match h1 : (if is_red (left (node l k d c r)) && is_red (right (node l k d c r))
        then color_flip_checked (node l k d c r) else some (node l k d c r)) with
    | none => none
    | some tree1 =>
      match (if key < key_of tree1
          then (rb_insert_checked (left tree1) key data).map (set_left tree1)
          else (rb_insert_checked (right tree1) key data).map (set_right tree1)) with
      | none => none
      | some tree2 =>
        match (if is_red (right tree2) then rotate_left_checked tree2 else some tree2) with
        | none => none
        | some tree3 =>
          if is_red (left tree3) && is_red (left (left tree3))
          then rotate_right_checked tree3 else some tree3
termination_by size tree
decreasing_by
  all_goals
    have hcf : ∀ t u : rbtree, color_flip_checked t = some u →
        size (left u) = size (left t) ∧ size (right u) = size (right t) := by
      intro t u h
      unfold color_flip_checked at h
      split at h
      · cases h; exact ⟨rfl, rfl⟩
      · cases h
    split at h1
    · have h2 := hcf _ _ h1
      simp only [left, right, size] at h2 ⊢
      omega
    · cases h1
      simp only [left, right, size]
      omega

/-! ## Field reads and writes on a given node -/

@[simp]
theorem is_red_nil : is_red nil = false := rfl
@[simp]
theorem is_red_node (l : rbtree) (k d : Nat) (c : Bool) (r : rbtree) :
    is_red (node l k d c r) = c := rfl
@[simp]
theorem left_nil : left nil = nil := rfl
@[simp]
theorem left_node (l : rbtree) (k d : Nat) (c : Bool) (r : rbtree) :
    left (node l k d c r) = l := rfl
@[simp]
theorem right_nil : right nil = nil := rfl
@[simp]
theorem right_node (l : rbtree) (k d : Nat) (c : Bool) (r : rbtree) :
    right (node l k d c r) = r := rfl
@[simp]
theorem key_of_node (l : rbtree) (k d : Nat) (c : Bool) (r : rbtree) :
    key_of (node l k d c r) = k := rfl
@[simp]
theorem data_of_node (l : rbtree) (k d : Nat) (c : Bool) (r : rbtree) :
    data_of (node l k d c r) = d := rfl
@[simp]
theorem red_of_node (l : rbtree) (k d : Nat) (c : Bool) (r : rbtree) :
    red_of (node l k d c r) = c := rfl
@[simp]
theorem set_red_nil (b : Bool) : set_red nil b = nil := rfl
@[simp]
theorem set_red_node (l : rbtree) (k d : Nat) (c : Bool) (r : rbtree) (b : Bool) :
    set_red (node l k d c r) b = node l k d b r := rfl
@[simp]
theorem set_left_node (l : rbtree) (k d : Nat) (c : Bool) (r x : rbtree) :
    set_left (node l k d c r) x = node x k d c r := rfl
@[simp]
theorem set_right_node (l : rbtree) (k d : Nat) (c : Bool) (r x : rbtree) :
    set_right (node l k d c r) x = node l k d c x := rfl
@[simp]
theorem rotate_left_node_node (a : rbtree) (k d : Nat) (c : Bool) (b : rbtree)
    (k2 d2 : Nat) (c2 : Bool) (e : rbtree) :
    rotate_left (node a k d c (node b k2 d2 c2 e)) = node (node a k d true b) k2 d2 c e := rfl
@[simp]
theorem rotate_right_node_node (a : rbtree) (k2 d2 : Nat) (c2 : Bool) (b : rbtree)
    (k d : Nat) (c : Bool) (e : rbtree) :
    rotate_right (node (node a k2 d2 c2 b) k d c e) = node a k2 d2 c (node b k d true e) := rfl
@[simp]
theorem color_flip_node (l : rbtree) (k d : Nat) (c : Bool) (r : rbtree) :
    color_flip (node l k d c r) =
      node (set_red l (!red_of l)) k d (!c) (set_red r (!red_of r)) := rfl
@[simp]
theorem bh_nil : bh nil = 0 := rfl
@[simp]
theorem bh_node (l : rbtree) (k d : Nat) (c : Bool) (r : rbtree) :
    bh (node l k d c r) = bh l + (if c then 0 else 1) := rfl

/-! ## One step of `rb_insert` -/

theorem rb_insert_nil (key data : Nat) :
    rb_insert nil key data = node nil key data true nil := by
  rw [rb_insert]; rfl

theorem rb_insert_node (l : rbtree) (k d : Nat) (c : Bool) (r : rbtree) (key data : Nat) :
    rb_insert (node l k d c r) key data =
      fix_step (if key < k
        then set_left (flip_step (node l k d c r))
          (rb_insert (left (flip_step (node l k d c r))) key data)
        else set_right (flip_step (node l k d c r))
          (rb_insert (right (flip_step (node l k d c r))) key data)) := by
  have hk : key_of (flip_step (node l k d c r)) = k := by
    unfold flip_step; split <;> rfl
  rw [rb_insert]
  simp only [fix_step, flip_step] at hk ⊢
  rw [hk]

theorem flip_step_red {l r : rbtree} (k d : Nat) (c : Bool)
    (hl : is_red l = true) (hr : is_red r = true) :
    flip_step (node l k d c r) = node (set_red l false) k d (!c) (set_red r false) := by
  cases l <;> cases r <;> simp_all [flip_step]

theorem flip_step_id {l r : rbtree} (k d : Nat) (c : Bool)
    (h : (is_red l && is_red r) = false) :
    flip_step (node l k d c r) = node l k d c r := by
  simp [flip_step, h]

theorem inorder_set_red (t : rbtree) (b : Bool) : inorder (set_red t b) = inorder t := by
  cases t <;> rfl

theorem size_set_red (t : rbtree) (b : Bool) : size (set_red t b) = size t := by
  cases t <;> rfl

/-- The node after the flip step: same key and data, children with the same
contents and as many nodes. -/
theorem flip_step_node (l : rbtree) (k d : Nat) (c : Bool) (r : rbtree) :
    ∃ l1 c1 r1, flip_step (node l k d c r) = node l1 k d c1 r1 ∧
      inorder l1 = inorder l ∧ inorder r1 = inorder r ∧
      size l1 = size l ∧ size r1 = size r := by
  by_cases h : (is_red l && is_red r) = true
  · refine ⟨set_red l (!red_of l), !c, set_red r (!red_of r), ?_, ?_, ?_, ?_, ?_⟩
    · simp [flip_step, h]
    · exact inorder_set_red _ _
    · exact inorder_set_red _ _
    · exact size_set_red _ _
    · exact size_set_red _ _
  · refine ⟨l, c, r, ?_, rfl, rfl, rfl, rfl⟩
    simp [flip_step, h]

theorem inorder_rotate_left (t : rbtree) : inorder (rotate_left t) = inorder t := by
  cases t with
  | nil => rfl
  | node l k d c r => cases r <;> simp [rotate_left, inorder]

theorem inorder_rotate_right (t : rbtree) : inorder (rotate_right t) = inorder t := by
  cases t with
  | nil => rfl
  | node l k d c r => cases l <;> simp [rotate_right, inorder]

theorem inorder_fix_step (t : rbtree) : inorder (fix_step t) = inorder t := by
  simp only [fix_step]
  split_ifs <;> simp [inorder_rotate_left, inorder_rotate_right]

theorem length_inorder (t : rbtree) : (inorder t).length = size t := by
  induction t with
  | nil => rfl
  | node l k d c r ihl ihr => simp [inorder, size, ihl, ihr]; omega

/-! ## Contents of the tree after an insertion (any shape of tree) -/

theorem inorder_rb_insert_perm_aux (n : Nat) :
    ∀ t : rbtree, size t ≤ n → ∀ key data : Nat,
      (inorder (rb_insert t key data)).Perm ((key, data) :: inorder t) := by
  induction n with
  | zero =>
    intro t ht key data
    cases t with
    | nil => simp [rb_insert_nil, inorder]
    | node l k d c r => simp [size] at ht
  | succ n ih =>
    intro t ht key data
    cases t with
    | nil => simp [rb_insert_nil, inorder]
    | node l k d c r =>
      obtain ⟨l1, c1, r1, he, hl, hr, sl, sr⟩ := flip_step_node l k d c r
      rw [rb_insert_node, inorder_fix_step, he]
      simp only [size] at ht
      by_cases hk : key < k
      · have h1 := ih l1 (by omega) key data
        simp only [hk, if_true, set_left, left, inorder, hr, ← hl]
        exact (h1.append_right _).trans (by simp)
      · have h1 := ih r1 (by omega) key data
        simp only [hk, if_false, set_right, right, inorder, hl, ← hr]
        have h2 : (inorder l ++ (k, d) :: inorder (rb_insert r1 key data)).Perm
            (inorder l ++ (k, d) :: (key, data) :: inorder r1) :=
          (h1.cons _).append_left _
        refine h2.trans ?_
        have h3 : ((k, d) :: (key, data) :: inorder r1).Perm
            ((key, data) :: (k, d) :: inorder r1) := List.Perm.swap _ _ _
        exact (h3.append_left _).trans List.perm_middle

theorem inorder_rb_insert_perm (t : rbtree) (key data : Nat) :
    (inorder (rb_insert t key data)).Perm ((key, data) :: inorder t) :=
  inorder_rb_insert_perm_aux (size t) t (le_refl _) key data

theorem size_rb_insert (t : rbtree) (key data : Nat) :
    size (rb_insert t key data) = size t + 1 := by
  have h := (inorder_rb_insert_perm t key data).length_eq
  simpa [length_inorder] using h

theorem mem_keys_rb_insert (t : rbtree) (key data x : Nat) :
    x ∈ keys (rb_insert t key data) ↔ x = key ∨ x ∈ keys t := by
  unfold keys
  rw [((inorder_rb_insert_perm t key data).map Prod.fst).mem_iff]
  simp

/-! ## Search-tree order -/

theorem keys_nil : keys nil = [] := rfl

theorem keys_node (l : rbtree) (k d : Nat) (c : Bool) (r : rbtree) :
    keys (node l k d c r) = keys l ++ k :: keys r := by
  simp [keys, inorder]

theorem keys_eq_of_inorder_eq {s t : rbtree} (h : inorder s = inorder t) : keys s = keys t := by
  simp [keys, h]

theorem sorted_keys_node {l : rbtree} {k d : Nat} {c : Bool} {r : rbtree} :
    (keys (node l k d c r)).Sorted (· ≤ ·) ↔
      (keys l).Sorted (· ≤ ·) ∧ (keys r).Sorted (· ≤ ·) ∧
        (∀ x ∈ keys l, x ≤ k) ∧ (∀ x ∈ keys r, k ≤ x) := by
  rw [keys_node]
  simp only [List.Sorted, List.pairwise_append, List.pairwise_cons]
  constructor
  · rintro ⟨h1, ⟨h2, h3⟩, h4⟩
    exact ⟨h1, h3, fun x hx => h4 x hx k (List.mem_cons_self _ _), h2⟩
  · rintro ⟨h1, h2, h3, h4⟩
    refine ⟨h1, ⟨h4, h2⟩, ?_⟩
    intro a ha b hb
    rcases List.mem_cons.1 hb with rfl | hb
    · exact h3 a ha
    · exact le_trans (h3 a ha) (h4 b hb)

theorem sorted_rb_insert_aux (n : Nat) :
    ∀ t : rbtree, size t ≤ n → ∀ key data : Nat, (keys t).Sorted (· ≤ ·) →
      (keys (rb_insert t key data)).Sorted (· ≤ ·) := by
  induction n with
  | zero =>
    intro t ht key data _
    cases t with
    | nil => simp [rb_insert_nil, keys, inorder]
    | node l k d c r => simp [size] at ht
  | succ n ih =>
    intro t ht key data hs
    cases t with
    | nil => simp [rb_insert_nil, keys, inorder]
    | node l k d c r =>
      obtain ⟨l1, c1, r1, he, hl, hr, sl, sr⟩ := flip_step_node l k d c r
      rw [rb_insert_node, keys_eq_of_inorder_eq (inorder_fix_step _), he]
      simp only [size] at ht
      obtain ⟨h1, h2, h3, h4⟩ := sorted_keys_node.1 hs
      rw [← keys_eq_of_inorder_eq hl] at h1 h3
      rw [← keys_eq_of_inorder_eq hr] at h2 h4
      by_cases hk : key < k
      · simp only [hk, if_true, set_left_node, left_node]
        refine sorted_keys_node.2 ⟨ih l1 (by omega) key data h1, h2, ?_, h4⟩
        intro x hx
        rcases (mem_keys_rb_insert _ _ _ _).1 hx with rfl | hx
        · exact le_of_lt hk
        · exact h3 x hx
      · simp only [hk, if_false, set_right_node, right_node]
        refine sorted_keys_node.2 ⟨h1, ih r1 (by omega) key data h2, h3, ?_⟩
        intro x hx
        rcases (mem_keys_rb_insert _ _ _ _).1 hx with rfl | hx
        · exact not_lt.1 hk
        · exact h4 x hx

theorem sorted_rb_insert (t : rbtree) (key data : Nat) (h : (keys t).Sorted (· ≤ ·)) :
    (keys (rb_insert t key data)).Sorted (· ≤ ·) :=
  sorted_rb_insert_aux (size t) t (le_refl _) key data h

theorem build_append (ops : List (Nat × Nat)) (p : Nat × Nat) :
    build (ops ++ [p]) = rb_insert (build ops) p.1 p.2 := by
  simp [build, List.foldl_append]

/-- Induction over the trees reachable from the empty tree by insertions. -/
theorem build_induction {P : rbtree → Prop} (h0 : P nil)
    (hstep : ∀ t key data, P t → P (rb_insert t key data)) (ops : List (Nat × Nat)) :
    P (build ops) := by
  induction ops using List.reverseRecOn with
  | nil => exact h0
  | append_singleton ops p ih => rw [build_append]; exact hstep _ _ _ ih

theorem sorted_keys_build (ops : List (Nat × Nat)) : (keys (build ops)).Sorted (· ≤ ·) :=
  build_induction (P := fun t => (keys t).Sorted (· ≤ ·)) (by simp [keys, inorder])
    (fun t key data h => sorted_rb_insert t key data h) ops

theorem inorder_build_perm (ops : List (Nat × Nat)) :
    (inorder (build ops)).Perm ops := by
  induction ops using List.reverseRecOn with
  | nil => simp [build, inorder]
  | append_singleton ops p ih =>
    rw [build_append]
    refine (inorder_rb_insert_perm _ _ _).trans ?_
    exact ((ih.cons _).trans (List.perm_append_singleton _ _).symm)

/-! ## Search -/

theorem mem_nodes_node {n l : rbtree} {k d : Nat} {c : Bool} {r : rbtree} :
    n ∈ nodes (node l k d c r) ↔ n = node l k d c r ∨ n ∈ nodes l ∨ n ∈ nodes r := by
  simp [nodes]

theorem ne_nil_of_mem_nodes {n t : rbtree} (h : n ∈ nodes t) : n ≠ nil := by
  induction t with
  | nil => simp [nodes] at h
  | node l k d c r ihl ihr =>
    rcases mem_nodes_node.1 h with rfl | h | h
    · simp
    · exact ihl h
    · exact ihr h

theorem key_of_mem_keys {n t : rbtree} (h : n ∈ nodes t) : key_of n ∈ keys t := by
  induction t with
  | nil => simp [nodes] at h
  | node l k d c r ihl ihr =>
    rw [keys_node]
    rcases mem_nodes_node.1 h with rfl | h | h
    · simp [key_of]
    · exact List.mem_append_left _ (ihl h)
    · exact List.mem_append_right _ (List.mem_cons_of_mem _ (ihr h))

/-- The search loop on an ordered tree: with a key `≤ q` in the tree it ends on
a node holding the greatest such key, otherwise it returns `best` as it was. -/
theorem rb_search_loop_spec (t : rbtree) :
    ∀ (best : Option rbtree) (q : Nat), (keys t).Sorted (· ≤ ·) →
      ((∃ x ∈ keys t, x ≤ q) → ∃ n, rb_search_loop best t q = some n ∧ n ∈ nodes t ∧
          key_of n ≤ q ∧ ∀ x ∈ keys t, x ≤ q → x ≤ key_of n) ∧
      ((∀ x ∈ keys t, q < x) → rb_search_loop best t q = best) := by
  induction t with
  | nil =>
    intro best q _
    simp [keys, inorder, rb_search_loop]
  | node l k d c r ihl ihr =>
    intro best q hs
    obtain ⟨h1, h2, h3, h4⟩ := sorted_keys_node.1 hs
    by_cases hkq : k = q
    · subst hkq
      simp only [rb_search_loop, if_true]
      refine ⟨fun _ => ⟨node l k d c r, rfl, by simp [nodes], le_refl _, fun x _ hx => hx⟩, ?_⟩
      intro h
      exact absurd (h k (by rw [keys_node]; simp)) (lt_irrefl _)
    · by_cases hgt : k > q
      · simp only [rb_search_loop, hkq, hgt, if_true, if_false]
        obtain ⟨ih1, ih2⟩ := ihl best q h1
        constructor
        · rintro ⟨x, hx, hxq⟩
          have hxl : x ∈ keys l := by
            rw [keys_node] at hx
            rcases List.mem_append.1 hx with hx | hx
            · exact hx
            · rcases List.mem_cons.1 hx with rfl | hx
              · omega
              · have := h4 x hx; omega
          obtain ⟨n, hn1, hn2, hn3, hn4⟩ := ih1 ⟨x, hxl, hxq⟩
          refine ⟨n, hn1, mem_nodes_node.2 (Or.inr (Or.inl hn2)), hn3, ?_⟩
          intro y hy hyq
          rw [keys_node] at hy
          rcases List.mem_append.1 hy with hy | hy
          · exact hn4 y hy hyq
          · rcases List.mem_cons.1 hy with rfl | hy
            · omega
            · have := h4 y hy; omega
        · intro h
          apply ih2
          intro x hx
          exact h x (by rw [keys_node]; exact List.mem_append_left _ hx)
      · have hlt : k < q := by omega
        simp only [rb_search_loop, hkq, hgt, if_false]
        obtain ⟨ih1, ih2⟩ := ihr (some (node l k d c r)) q h2
        constructor
        · intro _
          by_cases hex : ∃ x ∈ keys r, x ≤ q
          · obtain ⟨x, hx, hxq⟩ := hex
            obtain ⟨n, hn1, hn2, hn3, hn4⟩ := ih1 ⟨x, hx, hxq⟩
            have hkn : k ≤ key_of n := le_trans (h4 x hx) (hn4 x hx hxq)
            refine ⟨n, hn1, mem_nodes_node.2 (Or.inr (Or.inr hn2)), hn3, ?_⟩
            intro y hy hyq
            rw [keys_node] at hy
            rcases List.mem_append.1 hy with hy | hy
            · exact le_trans (h3 y hy) hkn
            · rcases List.mem_cons.1 hy with rfl | hy
              · exact hkn
              · exact hn4 y hy hyq
          · have hall : ∀ x ∈ keys r, q < x := by
              intro x hx
              by_contra hc
              exact hex ⟨x, hx, not_lt.1 hc⟩
            refine ⟨node l k d c r, ih2 hall, by simp [nodes], le_of_lt hlt, ?_⟩
            intro y hy hyq
            rw [keys_node] at hy
            rcases List.mem_append.1 hy with hy | hy
            · exact h3 y hy
            · rcases List.mem_cons.1 hy with rfl | hy
              · exact le_refl _
              · exact absurd hyq (not_le.2 (hall y hy))
        · intro h
          exact absurd (h k (by rw [keys_node]; simp)) (not_lt.2 (le_of_lt hlt))

theorem rb_search_some (t : rbtree) (q : Nat) (hs : (keys t).Sorted (· ≤ ·))
    (h : ∃ x ∈ keys t, x ≤ q) :
    ∃ n, rb_search t q = some n ∧ n ∈ nodes t ∧ key_of n ∈ keys t ∧ key_of n ≤ q ∧
      (∀ x ∈ keys t, x ≤ q → x ≤ key_of n) ∧ (q ∈ keys t → key_of n = q) := by
  obtain ⟨n, h1, h2, h3, h4⟩ := (rb_search_loop_spec t none q hs).1 h
  exact ⟨n, h1, h2, key_of_mem_keys h2, h3, h4, fun hq => le_antisymm h3 (h4 q hq (le_refl _))⟩

theorem rb_search_none_iff (t : rbtree) (q : Nat) (hs : (keys t).Sorted (· ≤ ·)) :
    rb_search t q = none ↔ ∀ x ∈ keys t, q < x := by
  constructor
  · intro h x hx
    by_contra hc
    obtain ⟨n, h1, _⟩ := (rb_search_loop_spec t none q hs).1 ⟨x, hx, not_lt.1 hc⟩
    rw [rb_search] at h
    rw [h] at h1
    exact Option.noConfusion h1
  · intro h
    exact (rb_search_loop_spec t none q hs).2 h

/-! ## The rotations on the way up, case by case -/

theorem fix_step_both {L R : rbtree} (k d : Nat) (c : Bool)
    (hR : is_red R = true) (hL : is_red L = true) :
    fix_step (node L k d c R) = node L k d c R := by
  cases R with
  | nil => simp at hR
  | node b k2 d2 c2 e =>
    simp only [is_red_node] at hR
    subst hR
    simp [fix_step, hL]

theorem fix_step_right {L R : rbtree} (k d : Nat) (c : Bool)
    (hR : is_red R = true) (hL : is_red L = false) :
    fix_step (node L k d c R) =
      node (node L k d true (left R)) (key_of R) (data_of R) c (right R) := by
  cases R with
  | nil => simp at hR
  | node b k2 d2 c2 e =>
    simp only [is_red_node] at hR
    subst hR
    simp [fix_step, hL]

theorem fix_step_left {L R : rbtree} (k d : Nat) (c : Bool)
    (hR : is_red R = false) (hL : is_red L = true) (hLL : is_red (left L) = true) :
    fix_step (node L k d c R) =
      node (left L) (key_of L) (data_of L) c (node (right L) k d true R) := by
  cases L with
  | nil => simp at hL
  | node a k2 d2 c2 b =>
    simp only [left_node, is_red_node] at hLL hL
    subst hL
    simp [fix_step, hLL, hR]

theorem fix_step_none {L R : rbtree} (k d : Nat) (c : Bool)
    (hR : is_red R = false) (h : (is_red L && is_red (left L)) = false) :
    fix_step (node L k d c R) = node L k d c R := by
  simp only [Bool.and_eq_false_iff] at h
  rcases h with h | h <;> simp [fix_step, hR, h]

theorem is_red_rotate_left (t : rbtree) : is_red (rotate_left t) = is_red t := by
  cases t with
  | nil => rfl
  | node l k d c r => cases r <;> simp [rotate_left]

theorem is_red_rotate_right (t : rbtree) : is_red (rotate_right t) = is_red t := by
  cases t with
  | nil => rfl
  | node l k d c r => cases l <;> simp [rotate_right]

theorem is_red_fix_step (t : rbtree) : is_red (fix_step t) = is_red t := by
  simp only [fix_step]
  split_ifs <;> simp [is_red_rotate_left, is_red_rotate_right]

theorem is_red_rb_insert_node (l : rbtree) (k d : Nat) (c : Bool) (r : rbtree)
    (key data : Nat) :
    is_red (rb_insert (node l k d c r) key data) = is_red (flip_step (node l k d c r)) := by
  obtain ⟨l1, c1, r1, he, -⟩ := flip_step_node l k d c r
  rw [rb_insert_node, is_red_fix_step, he]
  split <;> rfl

/-! ## Balance and colour invariants -/

theorem RB.toARB {t : rbtree} (h : RB t) : ARB t := by
  cases t with
  | nil => trivial
  | node l k d c r => exact ⟨h.1, fun hc => (h.2 hc).2⟩

theorem RB.toTop {t : rbtree} (h : RB t) : Top t := by
  cases t with
  | nil => trivial
  | node l k d c r => exact h.1

theorem RB_of_Top_black {t : rbtree} (h : Top t) (hc : is_red t = false) : RB t := by
  cases t with
  | nil => trivial
  | node l k d c r =>
    simp only [is_red_node] at hc
    subst hc
    exact ⟨h, by simp⟩

theorem ARB_of_Top {t : rbtree} (h : Top t)
    (hc : is_red t = true → is_red (right t) = false) : ARB t := by
  cases t with
  | nil => trivial
  | node l k d c r => exact ⟨h, hc⟩

theorem RB_of_ARB {t : rbtree} (h : ARB t) (hc : (is_red t && is_red (left t)) = false) :
    RB t := by
  cases t with
  | nil => trivial
  | node l k d c r =>
    refine ⟨h.1, fun hc1 => ⟨?_, h.2 hc1⟩⟩
    simpa [hc1] using hc

theorem RB_set_red_false {t : rbtree} (h : RB t) : RB (set_red t false) := by
  cases t with
  | nil => trivial
  | node l k d c r => exact ⟨h.1, by simp⟩

theorem bh_set_red_false {t : rbtree} (h : is_red t = true) :
    bh (set_red t false) = bh t + 1 := by
  cases t with
  | nil => simp at h
  | node l k d c r =>
    simp only [is_red_node] at h
    simp [h]

theorem is_red_set_red_false (t : rbtree) : is_red (set_red t false) = false := by
  cases t <;> rfl

/-- Inserting into a red node painted black (as `color_flip` leaves the
children of a 4-node) returns a black root: its children are black. -/
theorem is_red_rb_insert_set_red_false {t : rbtree} (h : RB t) (hr : is_red t = true)
    (key data : Nat) : is_red (rb_insert (set_red t false) key data) = false := by
  cases t with
  | nil => simp at hr
  | node l k d c r =>
    simp only [is_red_node] at hr
    subst hr
    have h2 := h.2 rfl
    simp only [set_red_node]
    rw [is_red_rb_insert_node, flip_step_id _ _ _ (by simp [h2.1])]
    rfl

/-- Rotations after an insertion into the left subtree. -/
theorem fix_left_inv {L r : rbtree} (k d : Nat) (c : Bool)
    (hL : ARB L) (hr : RB r) (hrr : is_red r = false) (hb : bh L = bh r) :
    Top (fix_step (node L k d c r)) ∧
      bh (fix_step (node L k d c r)) = bh L + (if c then 0 else 1) ∧
      (RB L → fix_step (node L k d c r) = node L k d c r) := by
  by_cases h : (is_red L && is_red (left L)) = true
  · simp only [Bool.and_eq_true] at h
    rw [fix_step_left k d c hrr h.1 h.2]
    cases L with
    | nil => simp at h
    | node a k2 d2 c2 b =>
      simp only [is_red_node, left_node] at h
      obtain ⟨h1, h2⟩ := h
      subst h1
      obtain ⟨⟨ha, hb1, hab, -⟩, hc2⟩ := hL
      have hbr : is_red b = false := hc2 rfl
      simp only [bh_node, if_true, Nat.add_zero] at hb
      simp only [left_node, right_node, key_of_node, data_of_node]
      refine ⟨?_, ?_, ?_⟩
      · refine ⟨ha, ⟨⟨hb1, hr, by omega, by simp [hrr]⟩, fun _ => ⟨hbr, hrr⟩⟩, ?_, fun _ => h2⟩
        simp only [bh_node, if_true, Nat.add_zero]
        exact hab
      · simp
      · intro hRB
        have h3 := (hRB.2 rfl).1
        rw [h2] at h3
        exact absurd h3 (by simp)
  · have h0 : (is_red L && is_red (left L)) = false := by simpa using h
    rw [fix_step_none k d c hrr h0]
    exact ⟨⟨RB_of_ARB hL h0, hr, hb, by simp [hrr]⟩, rfl, fun _ => rfl⟩

/-- Rotations after an insertion into the right subtree. -/
theorem fix_right_inv {l R : rbtree} (k d : Nat) (c : Bool)
    (hl : RB l) (hR : RB R) (hb : bh l = bh R) :
    Top (fix_step (node l k d c R)) ∧
      bh (fix_step (node l k d c R)) = bh l + (if c then 0 else 1) ∧
      (is_red l = false → is_red (right (fix_step (node l k d c R))) = false) := by
  by_cases hRr : is_red R = true
  · by_cases hlr : is_red l = true
    · rw [fix_step_both k d c hRr hlr]
      exact ⟨⟨hl, hR, hb, fun _ => hlr⟩, rfl, fun h => by rw [hlr] at h; exact absurd h (by simp)⟩
    · have hlr0 : is_red l = false := by simpa using hlr
      rw [fix_step_right k d c hRr hlr0]
      cases R with
      | nil => simp at hRr
      | node b k2 d2 c2 e =>
        simp only [is_red_node] at hRr
        subst hRr
        obtain ⟨⟨hb1, he, hbe, -⟩, hc2⟩ := hR
        obtain ⟨hbr, her⟩ := hc2 rfl
        simp only [bh_node, if_true, Nat.add_zero] at hb
        simp only [left_node, right_node, key_of_node, data_of_node]
        refine ⟨?_, ?_, fun _ => her⟩
        · refine ⟨⟨⟨hl, hb1, hb, by simp [hbr]⟩, fun _ => ⟨hlr0, hbr⟩⟩, he, ?_, by simp [her]⟩
          simp only [bh_node, if_true, Nat.add_zero]
          omega
        · simp
  · have hRr0 : is_red R = false := by simpa using hRr
    have h0 : (is_red l && is_red (left l)) = false := by
      cases l with
      | nil => rfl
      | node a k2 d2 c2 b =>
        cases c2 with
        | false => rfl
        | true => simpa using (hl.2 rfl).1
    rw [fix_step_none k d c hRr0 h0]
    exact ⟨⟨hl, hR, hb, by simp [hRr0]⟩, rfl, fun _ => hRr0⟩

theorem RB_leaf (key data : Nat) : RB (node nil key data true nil) :=
  ⟨⟨trivial, trivial, rfl, by simp⟩, fun _ => ⟨rfl, rfl⟩⟩

/-- Insertion into a valid subtree: the result has the same black height, is
valid up to a red root with a red left child, and is fully valid when the
subtree was empty or had a black root. -/
theorem rb_insert_RB_aux (n : Nat) :
    ∀ t : rbtree, size t ≤ n → ∀ key data : Nat, RB t →
      ARB (rb_insert t key data) ∧ bh (rb_insert t key data) = bh t ∧
        (is_red t = false → RB (rb_insert t key data)) := by
  induction n with
  | zero =>
    intro t ht key data _
    cases t with
    | nil => rw [rb_insert_nil]; exact ⟨(RB_leaf key data).toARB, rfl, fun _ => RB_leaf key data⟩
    | node l k d c r => simp [size] at ht
  | succ n ih =>
    intro t ht key data hRB
    cases t with
    | nil => rw [rb_insert_nil]; exact ⟨(RB_leaf key data).toARB, rfl, fun _ => RB_leaf key data⟩
    | node l k d c r =>
      simp only [size] at ht
      obtain ⟨⟨hl, hr, hb, hrl⟩, hc⟩ := hRB
      have hcol := is_red_rb_insert_node l k d c r key data
      rw [rb_insert_node] at hcol ⊢
      by_cases hboth : is_red l = true ∧ is_red r = true
      · -- a 4-node: split by the colour flip, the children become black
        obtain ⟨hlr, hrr⟩ := hboth
        have hc0 : c = false := by
          cases c with
          | false => rfl
          | true => have := (hc rfl).1; rw [hlr] at this; exact absurd this (by simp)
        subst hc0
        rw [flip_step_red k d false hlr hrr] at hcol ⊢
        simp only [left_node, right_node, set_left_node, set_right_node, Bool.not_false,
          is_red_node, bh_node, Bool.false_eq_true, if_false] at hcol ⊢
        have hl1 := ih (set_red l false) (by rw [size_set_red]; omega) key data
          (RB_set_red_false hl)
        have hr1 := ih (set_red r false) (by rw [size_set_red]; omega) key data
          (RB_set_red_false hr)
        have hlb := is_red_rb_insert_set_red_false hl hlr key data
        have hrb := is_red_rb_insert_set_red_false hr hrr key data
        have hbl := bh_set_red_false hlr
        have hbr := bh_set_red_false hrr
        by_cases hk : key < k
        · simp only [hk, if_true]
          rw [fix_step_none k d true (is_red_set_red_false r) (by simp [hlb])]
          have hv : RB (node (rb_insert (set_red l false) key data) k d true (set_red r false)) :=
            ⟨⟨hl1.2.2 (is_red_set_red_false l), RB_set_red_false hr, by omega,
              by simp [is_red_set_red_false]⟩, fun _ => ⟨hlb, is_red_set_red_false r⟩⟩
          refine ⟨hv.toARB, ?_, fun _ => hv⟩
          simp only [bh_node, if_true]
          omega
        · simp only [hk, if_false]
          rw [fix_step_none k d true hrb (by simp [is_red_set_red_false])]
          have hv : RB (node (set_red l false) k d true (rb_insert (set_red r false) key data)) :=
            ⟨⟨RB_set_red_false hl, hr1.2.2 (is_red_set_red_false r), by omega,
              by simp [hrb]⟩, fun _ => ⟨is_red_set_red_false l, hrb⟩⟩
          refine ⟨hv.toARB, ?_, fun _ => hv⟩
          simp only [bh_node, if_true]
          omega
      · -- no flip; the right child is black
        have hrr : is_red r = false := by
          cases hx : is_red r with
          | false => rfl
          | true => exact absurd ⟨hrl hx, hx⟩ hboth
        rw [flip_step_id k d c (by simp [hrr])] at hcol ⊢
        simp only [left_node, right_node, set_left_node, set_right_node, is_red_node,
          bh_node] at hcol ⊢
        by_cases hk : key < k
        · simp only [hk, if_true] at hcol ⊢
          obtain ⟨hL1, hL2, hL3⟩ := ih l (by omega) key data hl
          obtain ⟨hT, hB, hid⟩ := fix_left_inv k d c hL1 hr hrr (by omega)
          refine ⟨?_, by omega, fun hc0 => RB_of_Top_black hT (by rw [hcol]; simpa using hc0)⟩
          apply ARB_of_Top hT
          intro hred
          rw [hcol] at hred
          rw [hid (hL3 (hc hred).1)]
          exact hrr
        · simp only [hk, if_false] at hcol ⊢
          obtain ⟨hR1, hR2, hR3⟩ := ih r (by omega) key data hr
          obtain ⟨hT, hB, hrt⟩ := fix_right_inv k d c hl (hR3 hrr) (by omega)
          refine ⟨?_, by omega, fun hc0 => RB_of_Top_black hT (by rw [hcol]; simpa using hc0)⟩
          apply ARB_of_Top hT
          intro hred
          rw [hcol] at hred
          exact hrt (hc hred).1

theorem rb_insert_RB (t : rbtree) (key data : Nat) (h : RB t) :
    ARB (rb_insert t key data) ∧ bh (rb_insert t key data) = bh t ∧
      (is_red t = false → RB (rb_insert t key data)) :=
  rb_insert_RB_aux (size t) t (le_refl _) key data h

/-- The invariant of whole trees is kept by every insertion. -/
theorem Top_rb_insert (t : rbtree) (key data : Nat) (h : Top t) :
    Top (rb_insert t key data) := by
  cases t with
  | nil => rw [rb_insert_nil]; exact (RB_leaf key data).toTop
  | node l k d c r =>
    obtain ⟨hl, hr, hb, hrl⟩ := h
    rw [rb_insert_node]
    by_cases hboth : is_red l = true ∧ is_red r = true
    · obtain ⟨hlr, hrr⟩ := hboth
      rw [flip_step_red k d c hlr hrr]
      simp only [left_node, right_node, set_left_node, set_right_node]
      have hl1 := rb_insert_RB (set_red l false) key data (RB_set_red_false hl)
      have hr1 := rb_insert_RB (set_red r false) key data (RB_set_red_false hr)
      have hlb := is_red_rb_insert_set_red_false hl hlr key data
      have hrb := is_red_rb_insert_set_red_false hr hrr key data
      have hbl := bh_set_red_false hlr
      have hbr := bh_set_red_false hrr
      by_cases hk : key < k
      · simp only [hk, if_true]
        rw [fix_step_none k d _ (is_red_set_red_false r) (by simp [hlb])]
        exact ⟨hl1.2.2 (is_red_set_red_false l), RB_set_red_false hr, by omega,
          by simp [is_red_set_red_false]⟩
      · simp only [hk, if_false]
        rw [fix_step_none k d _ hrb (by simp [is_red_set_red_false])]
        exact ⟨RB_set_red_false hl, hr1.2.2 (is_red_set_red_false r), by omega, by simp [hrb]⟩
    · have hrr : is_red r = false := by
        cases hx : is_red r with
        | false => rfl
        | true => exact absurd ⟨hrl hx, hx⟩ hboth
      rw [flip_step_id k d c (by simp [hrr])]
      simp only [left_node, right_node, set_left_node, set_right_node]
      by_cases hk : key < k
      · simp only [hk, if_true]
        obtain ⟨hL1, hL2, -⟩ := rb_insert_RB l key data hl
        exact (fix_left_inv k d c hL1 hr hrr (by omega)).1
      · simp only [hk, if_false]
        obtain ⟨-, hR2, hR3⟩ := rb_insert_RB r key data hr
        exact (fix_right_inv k d c hl (hR3 hrr) (by omega)).1

theorem Top_build (ops : List (Nat × Nat)) : Top (build ops) :=
  build_induction (P := Top) trivial (fun t key data h => Top_rb_insert t key data h) ops

/-! ## Consequences of the invariants for every node -/

theorem RB_of_mem_nodes {t n : rbtree} (h : RB t) (hn : n ∈ nodes t) : RB n := by
  induction t with
  | nil => simp [nodes] at hn
  | node l k d c r ihl ihr =>
    rcases mem_nodes_node.1 hn with rfl | hn | hn
    · exact h
    · exact ihl h.1.1 hn
    · exact ihr h.1.2.1 hn

theorem Top_of_mem_nodes {t n : rbtree} (h : Top t) (hn : n ∈ nodes t) : Top n := by
  cases t with
  | nil => simp [nodes] at hn
  | node l k d c r =>
    rcases mem_nodes_node.1 hn with rfl | hn | hn
    · exact h
    · exact (RB_of_mem_nodes h.1 hn).toTop
    · exact (RB_of_mem_nodes h.2.1 hn).toTop

theorem black_counts_eq_bh {t : rbtree} (h : RB t) : ∀ x ∈ black_counts t, x = bh t := by
  induction t with
  | nil => intro x hx; simpa [black_counts] using hx
  | node l k d c r ihl ihr =>
    obtain ⟨⟨hl, hr, hb, -⟩, -⟩ := h
    intro x hx
    simp only [black_counts, List.mem_map, List.mem_append] at hx
    obtain ⟨y, hy, rfl⟩ := hx
    rcases hy with hy | hy
    · rw [ihl hl y hy, bh_node]
    · rw [ihr hr y hy, bh_node, hb]

theorem black_links_eq_of_Top {n : rbtree} (h : Top n) :
    ∀ a ∈ black_links n, a = bh (left n) := by
  cases n with
  | nil => intro a ha; simpa [black_links, black_counts] using ha
  | node l k d c r =>
    obtain ⟨hl, hr, hb, -⟩ := h
    intro a ha
    simp only [black_links, left_node, right_node, List.mem_append] at ha
    rcases ha with ha | ha
    · exact black_counts_eq_bh hl a ha
    · rw [left_node, hb]; exact black_counts_eq_bh hr a ha

theorem red_right_of_Top {n : rbtree} (h : Top n) (hr : is_red (right n) = true) :
    is_red (left n) = true := by
  cases n with
  | nil => simp at hr
  | node l k d c r => exact h.2.2.2 hr

theorem red_left_of_RB {n : rbtree} (h : RB n) (hr : is_red n = true) :
    is_red (left n) = false := by
  cases n with
  | nil => rfl
  | node l k d c r => exact (h.2 hr).1

theorem RB_of_mem_nodes_below {t n : rbtree} (h : Top t)
    (hn : n ∈ nodes (left t) ++ nodes (right t)) : RB n := by
  cases t with
  | nil => simp [nodes] at hn
  | node l k d c r =>
    simp only [left_node, right_node, List.mem_append] at hn
    rcases hn with hn | hn
    · exact RB_of_mem_nodes h.1 hn
    · exact RB_of_mem_nodes h.2.1 hn

/-! ## Height -/

theorem height_le_of_RB {t : rbtree} (h : RB t) :
    height t ≤ 2 * bh t + (if is_red t = true then 1 else 0) := by
  induction t with
  | nil => simp [height]
  | node l k d c r ihl ihr =>
    obtain ⟨⟨hl, hr, hb, -⟩, hc⟩ := h
    have h1 := ihl hl
    have h2 := ihr hr
    simp only [height, bh_node, is_red_node]
    cases c with
    | true =>
      obtain ⟨hlb, hrb⟩ := hc rfl
      simp only [hlb, hrb, Bool.false_eq_true, if_false, Nat.add_zero] at h1 h2
      simp only [if_true]
      have := max_le h1 (hb ▸ h2)
      omega
    | false =>
      simp only [Bool.false_eq_true, if_false]
      have h1a : height l ≤ 2 * bh l + 1 := by split at h1 <;> omega
      have h2a : height r ≤ 2 * bh l + 1 := by rw [hb]; split at h2 <;> omega
      have := max_le h1a h2a
      omega

theorem pow_bh_le_size {t : rbtree} (h : RB t) : 2 ^ bh t ≤ size t + 1 := by
  induction t with
  | nil => simp [size]
  | node l k d c r ihl ihr =>
    obtain ⟨⟨hl, hr, hb, -⟩, -⟩ := h
    have h1 := ihl hl
    have h2 := ihr hr
    rw [← hb] at h2
    simp only [bh_node, size]
    cases c with
    | true => simp only [if_true, Nat.add_zero]; omega
    | false =>
      simp only [Bool.false_eq_true, if_false, pow_succ]
      omega

theorem height_le_of_Top {t : rbtree} (h : Top t) :
    height t ≤ 2 * Nat.clog 2 (size t + 1) := by
  cases t with
  | nil => simp [height]
  | node l k d c r =>
    obtain ⟨hl, hr, hb, -⟩ := h
    have h1 := height_le_of_RB hl
    have h2 := height_le_of_RB hr
    have h3 := pow_bh_le_size hl
    have h4 := pow_bh_le_size hr
    rw [← hb] at h2 h4
    have h1a : height l ≤ 2 * bh l + 1 := by split at h1 <;> omega
    have h2a : height r ≤ 2 * bh l + 1 := by split at h2 <;> omega
    have hmax := max_le h1a h2a
    have hpow : 2 ^ (bh l + 1) ≤ size (node l k d c r) + 1 := by
      simp only [size, pow_succ]; omega
    have hclog : bh l + 1 ≤ Nat.clog 2 (size (node l k d c r) + 1) := by
      have hle := Nat.le_pow_clog (by decide : 1 < 2) (size (node l k d c r) + 1)
      exact (Nat.pow_le_pow_iff_right (by decide : 1 < 2)).1 (le_trans hpow hle)
    simp only [height]
    omega

/-! ## Insertions in non-decreasing key order -/

theorem mem_keys_build (ops : List (Nat × Nat)) (x : Nat) :
    x ∈ keys (build ops) ↔ x ∈ ops.map Prod.fst := by
  unfold keys
  exact ((inorder_build_perm ops).map Prod.fst).mem_iff

theorem keys_build_of_sorted (ops : List (Nat × Nat))
    (h : (ops.map Prod.fst).Sorted (· ≤ ·)) : keys (build ops) = ops.map Prod.fst :=
  List.eq_of_perm_of_sorted ((inorder_build_perm ops).map Prod.fst) (sorted_keys_build ops) h

theorem order_of_mem_nodes {t n : rbtree} (h : (keys t).Sorted (· ≤ ·)) (hn : n ∈ nodes t) :
    (∀ x ∈ keys (left n), x ≤ key_of n) ∧ (∀ x ∈ keys (right n), key_of n ≤ x) := by
  induction t with
  | nil => simp [nodes] at hn
  | node l k d c r ihl ihr =>
    obtain ⟨h1, h2, h3, h4⟩ := sorted_keys_node.1 h
    rcases mem_nodes_node.1 hn with rfl | hn | hn
    · exact ⟨h3, h4⟩
    · exact ihl h1 hn
    · exact ihr h2 hn

theorem sorted_lt_keys_node {l : rbtree} {k d : Nat} {c : Bool} {r : rbtree} :
    (keys (node l k d c r)).Sorted (· < ·) →
      (keys l).Sorted (· < ·) ∧ (keys r).Sorted (· < ·) ∧
        (∀ x ∈ keys l, x < k) ∧ (∀ x ∈ keys r, k < x) := by
  rw [keys_node]
  simp only [List.Sorted, List.pairwise_append, List.pairwise_cons]
  rintro ⟨h1, ⟨h2, h3⟩, h4⟩
  exact ⟨h1, h3, fun x hx => h4 x hx k (List.mem_cons_self _ _), h2⟩

theorem strict_order_of_mem_nodes {t n : rbtree} (h : (keys t).Sorted (· < ·))
    (hn : n ∈ nodes t) :
    (∀ x ∈ keys (left n), x < key_of n) ∧ (∀ x ∈ keys (right n), key_of n < x) := by
  induction t with
  | nil => simp [nodes] at hn
  | node l k d c r ihl ihr =>
    obtain ⟨h1, h2, h3, h4⟩ := sorted_lt_keys_node h
    rcases mem_nodes_node.1 hn with rfl | hn | hn
    · exact ⟨h3, h4⟩
    · exact ihl h1 hn
    · exact ihr h2 hn

theorem sorted_lt_keys_build (ops : List (Nat × Nat)) (h : (ops.map Prod.fst).Nodup) :
    (keys (build ops)).Sorted (· < ·) :=
  (sorted_keys_build ops).lt_of_le (((inorder_build_perm ops).map Prod.fst).nodup_iff.2 h)

/-! ## Concrete trees -/

theorem build_scenario_one :
    build [(10, 100), (20, 200), (5, 50), (15, 150), (1, 11)] =
      node (node (node nil 1 11 true nil) 5 50 false nil) 10 100 false
        (node (node nil 15 150 true nil) 20 200 false nil) := by
  simp [build, rb_insert_node, rb_insert_nil, flip_step, fix_step]

theorem build_duplicate :
    build [(10, 100), (10, 101)] = node (node nil 10 100 true nil) 10 101 true nil := by
  simp [build, rb_insert_node, rb_insert_nil, flip_step, fix_step]

theorem build_one_two :
    build [(1, 11), (2, 22)] = node (node nil 1 11 true nil) 2 22 true nil := by
  simp [build, rb_insert_node, rb_insert_nil, flip_step, fix_step]

theorem build_one_two_three :
    build [(1, 11), (2, 22), (3, 33)] =
      node (node nil 1 11 true nil) 2 22 true (node nil 3 33 true nil) := by
  simp [build, rb_insert_node, rb_insert_nil, flip_step, fix_step]

/-- The searches of the first scenario of the specification: keys 10, 20, 5,
15, 1 inserted in this order, then queries 12, 20, 0 and 100. -/
theorem search_scenario_one :
    (rb_search (build [(10, 100), (20, 200), (5, 50), (15, 150), (1, 11)]) 12).map key_of
        = some 10 ∧
      (rb_search (build [(10, 100), (20, 200), (5, 50), (15, 150), (1, 11)]) 20).map key_of
        = some 20 ∧
      rb_search (build [(10, 100), (20, 200), (5, 50), (15, 150), (1, 11)]) 0 = none ∧
      (rb_search (build [(10, 100), (20, 200), (5, 50), (15, 150), (1, 11)]) 100).map key_of
        = some 20 := by
  rw [build_scenario_one]
  decide

/-! ## Properties of the specification -/

/-- C1 (floor correctness): for every tree built from the empty tree by
insertions and every query `q`, if the tree holds a key `≤ q` then `rb_search`
returns a node of the tree whose key is a key of the tree, is `≤ q` and is
`≥` every key of the tree that is `≤ q`; when `q` itself is a key of the
tree the returned node has key `q`. -/
theorem C1_floor_correct (ops : List (Nat × Nat)) (q : Nat)
    (h : ∃ x ∈ keys (build ops), x ≤ q) :
    ∃ n, rb_search (build ops) q = some n ∧ n ∈ nodes (build ops) ∧
      key_of n ∈ keys (build ops) ∧ key_of n ≤ q ∧
      (∀ x ∈ keys (build ops), x ≤ q → x ≤ key_of n) ∧
      (q ∈ keys (build ops) → key_of n = q) :=
  rb_search_some (build ops) q (sorted_keys_build ops) h

/-- Witness for C1: keys 10, 20, 5, 15, 1 and the query 12. -/
theorem C1_floor_correct_witness :
    (∃ x ∈ keys (build [(10, 100), (20, 200), (5, 50), (15, 150), (1, 11)]), x ≤ 12) ∧
    ∃ n, rb_search (build [(10, 100), (20, 200), (5, 50), (15, 150), (1, 11)]) 12 = some n ∧
      n ∈ nodes (build [(10, 100), (20, 200), (5, 50), (15, 150), (1, 11)]) ∧
      key_of n ∈ keys (build [(10, 100), (20, 200), (5, 50), (15, 150), (1, 11)]) ∧
      key_of n ≤ 12 ∧
      (∀ x ∈ keys (build [(10, 100), (20, 200), (5, 50), (15, 150), (1, 11)]),
        x ≤ 12 → x ≤ key_of n) ∧
      (12 ∈ keys (build [(10, 100), (20, 200), (5, 50), (15, 150), (1, 11)]) → key_of n = 12) :=
  have h0 : ∃ x ∈ keys (build [(10, 100), (20, 200), (5, 50), (15, 150), (1, 11)]), x ≤ 12 :=
    ⟨10, by rw [build_scenario_one]; decide, by decide⟩
  ⟨h0, C1_floor_correct _ 12 h0⟩

/-- C2 (absent result): for every tree built from the empty tree by insertions
and every query `q`, `rb_search` returns `NULL` exactly when every key of the
tree is strictly greater than `q`; on the empty tree it returns `NULL` for
every query. -/
theorem C2_absent_iff :
    (∀ (ops : List (Nat × Nat)) (q : Nat),
      rb_search (build ops) q = none ↔ ∀ x ∈ keys (build ops), q < x) ∧
    (∀ q : Nat, rb_search nil q = none) :=
  ⟨fun ops q => rb_search_none_iff (build ops) q (sorted_keys_build ops), fun _ => rfl⟩

/-- C3 (sorted in-order): after any sequence of insertions into the empty tree
the in-order traversal lists the keys in non-decreasing order; inserting the
keys 1, 2, ..., 1000 in this order (with any data) gives exactly the in-order
key sequence 1, 2, ..., 1000. -/
theorem C3_inorder_sorted :
    (∀ ops : List (Nat × Nat), (keys (build ops)).Sorted (· ≤ ·)) ∧
    (∀ data : Nat → Nat,
      keys (build ((List.range' 1 1000).map (fun i => (i, data i)))) = List.range' 1 1000) := by
  refine ⟨sorted_keys_build, fun data => ?_⟩
  have hm : ((List.range' 1 1000).map (fun i => (i, data i))).map Prod.fst =
      List.range' 1 1000 := by
    rw [List.map_map]
    exact List.map_id _
  rw [keys_build_of_sorted _ (by rw [hm]; exact List.pairwise_le_range' 1 1000), hm]

/-- C4 as stated fails: after inserting key 10 twice, the root holds 10 and
its left subtree holds 10 as well, which is not strictly smaller. -/
theorem C4_strict_left_counterexample :
    ¬ (∀ n ∈ nodes (build [(10, 100), (10, 101)]),
        (∀ x ∈ keys (left n), x < key_of n) ∧ (∀ x ∈ keys (right n), key_of n ≤ x)) := by
  rw [build_duplicate]
  decide

/-- C4 (amended, search-tree order): in every tree built from the empty tree
by insertions, for every node `n`, every key in the left subtree of `n` is
less than or equal to the key of `n` and every key in its right subtree is
greater than or equal to it; when the inserted keys are pairwise distinct the
keys of the left subtree are strictly less. -/
theorem C4_bst_order (ops : List (Nat × Nat)) (n : rbtree) (hn : n ∈ nodes (build ops)) :
    (∀ x ∈ keys (left n), x ≤ key_of n) ∧ (∀ x ∈ keys (right n), key_of n ≤ x) ∧
      ((ops.map Prod.fst).Nodup → ∀ x ∈ keys (left n), x < key_of n) :=
  ⟨(order_of_mem_nodes (sorted_keys_build ops) hn).1,
    (order_of_mem_nodes (sorted_keys_build ops) hn).2,
    fun hd => (strict_order_of_mem_nodes (sorted_lt_keys_build ops hd) hn).1⟩

/-- Witness for C4 (amended): the root after inserting the pairwise distinct
keys 10, 20, 5, 15, 1. -/
theorem C4_bst_order_witness :
    (node (node (node nil 1 11 true nil) 5 50 false nil) 10 100 false
          (node (node nil 15 150 true nil) 20 200 false nil) ∈
        nodes (build [(10, 100), (20, 200), (5, 50), (15, 150), (1, 11)]) ∧
      ([(10, 100), (20, 200), (5, 50), (15, 150), (1, 11)].map Prod.fst).Nodup) ∧
    ((∀ x ∈ keys (left (node (node (node nil 1 11 true nil) 5 50 false nil) 10 100 false
          (node (node nil 15 150 true nil) 20 200 false nil))),
        x ≤ key_of (node (node (node nil 1 11 true nil) 5 50 false nil) 10 100 false
          (node (node nil 15 150 true nil) 20 200 false nil))) ∧
      (∀ x ∈ keys (right (node (node (node nil 1 11 true nil) 5 50 false nil) 10 100 false
          (node (node nil 15 150 true nil) 20 200 false nil))),
        key_of (node (node (node nil 1 11 true nil) 5 50 false nil) 10 100 false
          (node (node nil 15 150 true nil) 20 200 false nil)) ≤ x) ∧
      (∀ x ∈ keys (left (node (node (node nil 1 11 true nil) 5 50 false nil) 10 100 false
          (node (node nil 15 150 true nil) 20 200 false nil))),
        x < key_of (node (node (node nil 1 11 true nil) 5 50 false nil) 10 100 false
          (node (node nil 15 150 true nil) 20 200 false nil)))) :=
  have h0 : node (node (node nil 1 11 true nil) 5 50 false nil) 10 100 false
        (node (node nil 15 150 true nil) 20 200 false nil) ∈
      nodes (build [(10, 100), (20, 200), (5, 50), (15, 150), (1, 11)]) := by
    rw [build_scenario_one]; decide
  have hd : ([(10, 100), (20, 200), (5, 50), (15, 150), (1, 11)].map Prod.fst).Nodup := by
    decide
  ⟨⟨h0, hd⟩, (C4_bst_order _ _ h0).1, (C4_bst_order _ _ h0).2.1,
    (C4_bst_order _ _ h0).2.2 hd⟩

/-- C5 (perfect black balance): in every tree built from the empty tree by
insertions, for every node `n`, any two paths from `n` down to an empty child
slot pass through the same number of black links. -/
theorem C5_black_balance (ops : List (Nat × Nat)) (n : rbtree)
    (hn : n ∈ nodes (build ops)) :
    ∀ a ∈ black_links n, ∀ b ∈ black_links n, a = b := by
  have h := black_links_eq_of_Top (Top_of_mem_nodes (Top_build ops) hn)
  intro a ha b hb
  rw [h a ha, h b hb]

/-- Witness for C5: the root after inserting 10, 20, 5, 15, 1. -/
theorem C5_black_balance_witness :
    node (node (node nil 1 11 true nil) 5 50 false nil) 10 100 false
        (node (node nil 15 150 true nil) 20 200 false nil) ∈
      nodes (build [(10, 100), (20, 200), (5, 50), (15, 150), (1, 11)]) ∧
    ∀ a ∈ black_links (node (node (node nil 1 11 true nil) 5 50 false nil) 10 100 false
        (node (node nil 15 150 true nil) 20 200 false nil)),
      ∀ b ∈ black_links (node (node (node nil 1 11 true nil) 5 50 false nil) 10 100 false
        (node (node nil 15 150 true nil) 20 200 false nil)), a = b :=
  have h0 : node (node (node nil 1 11 true nil) 5 50 false nil) 10 100 false
        (node (node nil 15 150 true nil) 20 200 false nil) ∈
      nodes (build [(10, 100), (20, 200), (5, 50), (15, 150), (1, 11)]) := by
    rw [build_scenario_one]; decide
  ⟨h0, C5_black_balance _ _ h0⟩

/-- C6 as stated fails: after inserting 1, 2, 3 the root (key 2) has a red
right child (key 3). -/
theorem C6_no_red_right_counterexample :
    ¬ (∀ n ∈ nodes (build [(1, 11), (2, 22), (3, 33)]), is_red (right n) = false) := by
  rw [build_one_two_three]
  decide

/-- C6 (amended, no lone right-leaning red link): in every tree built from the
empty tree by insertions, a node whose right child is red has a red left
child too. -/
theorem C6_red_right_has_red_left (ops : List (Nat × Nat)) (n : rbtree)
    (hn : n ∈ nodes (build ops)) (hr : is_red (right n) = true) :
    is_red (left n) = true :=
  red_right_of_Top (Top_of_mem_nodes (Top_build ops) hn) hr

/-- Witness for C6 (amended): the root after inserting 1, 2, 3. -/
theorem C6_red_right_has_red_left_witness :
    (node (node nil 1 11 true nil) 2 22 true (node nil 3 33 true nil) ∈
        nodes (build [(1, 11), (2, 22), (3, 33)]) ∧
      is_red (right (node (node nil 1 11 true nil) 2 22 true (node nil 3 33 true nil))) = true) ∧
    is_red (left (node (node nil 1 11 true nil) 2 22 true (node nil 3 33 true nil))) = true :=
  have h0 : node (node nil 1 11 true nil) 2 22 true (node nil 3 33 true nil) ∈
      nodes (build [(1, 11), (2, 22), (3, 33)]) := by rw [build_one_two_three]; decide
  ⟨⟨h0, rfl⟩, C6_red_right_has_red_left _ _ h0 rfl⟩

/-- C7 as stated fails: after inserting 1, 2 the root (key 2) is red and its
left child (key 1) is red. -/
theorem C7_no_red_red_left_counterexample :
    ¬ (∀ n ∈ nodes (build [(1, 11), (2, 22)]), is_red n = true → is_red (left n) = false) := by
  rw [build_one_two]
  decide

/-- C7 (amended, no consecutive left reds below the root): in every tree built
from the empty tree by insertions, no red node other than the root has a red
left child. -/
theorem C7_no_red_red_left_below_root (ops : List (Nat × Nat)) (n : rbtree)
    (hn : n ∈ nodes (left (build ops)) ++ nodes (right (build ops)))
    (hr : is_red n = true) : is_red (left n) = false :=
  red_left_of_RB (RB_of_mem_nodes_below (Top_build ops) hn) hr

/-- Witness for C7 (amended): the red node with key 1 below the root after
inserting 10, 20, 5, 15, 1. -/
theorem C7_no_red_red_left_below_root_witness :
    (node nil 1 11 true nil ∈
        nodes (left (build [(10, 100), (20, 200), (5, 50), (15, 150), (1, 11)])) ++
          nodes (right (build [(10, 100), (20, 200), (5, 50), (15, 150), (1, 11)])) ∧
      is_red (node nil 1 11 true nil) = true) ∧
    is_red (left (node nil 1 11 true nil)) = false :=
  have h0 : node nil 1 11 true nil ∈
      nodes (left (build [(10, 100), (20, 200), (5, 50), (15, 150), (1, 11)])) ++
        nodes (right (build [(10, 100), (20, 200), (5, 50), (15, 150), (1, 11)])) := by
    rw [build_scenario_one]; decide
  ⟨⟨h0, rfl⟩, C7_no_red_red_left_below_root _ _ h0 rfl⟩

/-- C8 (height bound): every tree built from the empty tree by insertions,
with `n` nodes, has height at most `2 * ⌈log₂ (n + 1)⌉`; it has as many nodes
as insertions were made. -/
theorem C8_height_bound (ops : List (Nat × Nat)) :
    height (build ops) ≤ 2 * Nat.clog 2 (size (build ops) + 1) ∧
      size (build ops) = ops.length := by
  refine ⟨height_le_of_Top (Top_build ops), ?_⟩
  rw [← length_inorder]
  exact (inorder_build_perm ops).length_eq

/-- C9 (insertion keeps every entry): for every tree `t` of any shape and
colouring, the multiset of `(key, data)` pairs of `rb_insert t k v` is that of
`t` with one more occurrence of `(k, v)`, and the number of nodes grows by
exactly one. -/
theorem C9_insert_adds_one (t : rbtree) (k v : Nat) :
    (↑(inorder (rb_insert t k v)) : Multiset (Nat × Nat)) = (k, v) ::ₘ ↑(inorder t) ∧
      size (rb_insert t k v) = size t + 1 := by
  refine ⟨?_, size_rb_insert t k v⟩
  rw [Multiset.cons_coe]
  exact Multiset.coe_eq_coe.2 (inorder_rb_insert_perm t k v)

/-- C10 (search after a duplicate insertion): when a tree built from the empty
tree by insertions already holds key `k`, the tree after inserting `k` again
holds `k` at least twice, and searching it for `k` returns one of its nodes,
with key `k`. -/
theorem C10_search_after_duplicate (ops : List (Nat × Nat)) (k v : Nat)
    (h : k ∈ keys (build ops)) :
    2 ≤ (keys (rb_insert (build ops) k v)).count k ∧
      ∃ n, rb_search (rb_insert (build ops) k v) k = some n ∧
        n ∈ nodes (rb_insert (build ops) k v) ∧ key_of n = k := by
  constructor
  · have hp := (inorder_rb_insert_perm (build ops) k v).map Prod.fst
    have hc : (keys (rb_insert (build ops) k v)).count k = (k :: keys (build ops)).count k := by
      simpa [keys] using hp.count_eq k
    rw [hc, List.count_cons_self]
    have := List.count_pos_iff.2 h
    omega
  · have hs := sorted_rb_insert (build ops) k v (sorted_keys_build ops)
    have hm : k ∈ keys (rb_insert (build ops) k v) :=
      (mem_keys_rb_insert _ _ _ _).2 (Or.inl rfl)
    obtain ⟨n, h1, h2, -, -, -, h6⟩ := rb_search_some _ k hs ⟨k, hm, le_refl _⟩
    exact ⟨n, h1, h2, h6 hm⟩

/-- Witness for C10: key 10 inserted, then inserted again with other data. -/
theorem C10_search_after_duplicate_witness :
    10 ∈ keys (build [(10, 100)]) ∧
    (2 ≤ (keys (rb_insert (build [(10, 100)]) 10 101)).count 10 ∧
      ∃ n, rb_search (rb_insert (build [(10, 100)]) 10 101) 10 = some n ∧
        n ∈ nodes (rb_insert (build [(10, 100)]) 10 101) ∧ key_of n = 10) :=
  have h0 : 10 ∈ keys (build [(10, 100)]) := by
    simp [build, rb_insert_nil, keys, inorder]
  ⟨h0, C10_search_after_duplicate _ 10 101 h0⟩

/-! ## The helpers never fault inside `rb_insert` -/

theorem color_flip_checked_of_red {l r : rbtree} (k d : Nat) (c : Bool)
    (hl : is_red l = true) (hr : is_red r = true) :
    color_flip_checked (node l k d c r) = some (color_flip (node l k d c r)) := by
  cases l with
  | nil => simp at hl
  | node a k1 d1 c1 b =>
    cases r with
    | nil => simp at hr
    | node e k2 d2 c2 f => simp [color_flip_checked]

theorem rotate_left_checked_of_red {t : rbtree} (h : is_red (right t) = true) :
    rotate_left_checked t = some (rotate_left t) := by
  cases t with
  | nil => simp at h
  | node l k d c r =>
    cases r with
    | nil => simp at h
    | node b k2 d2 c2 e => rfl

theorem rotate_right_checked_of_red {t : rbtree} (h : is_red (left t) = true) :
    rotate_right_checked t = some (rotate_right t) := by
  cases t with
  | nil => simp at h
  | node l k d c r =>
    cases l with
    | nil => simp at h
    | node a k2 d2 c2 b => rfl

theorem flip_checked_eq (l : rbtree) (k d : Nat) (c : Bool) (r : rbtree) :
    (if is_red (left (node l k d c r)) && is_red (right (node l k d c r))
        then color_flip_checked (node l k d c r) else some (node l k d c r)) =
      some (flip_step (node l k d c r)) := by
  by_cases h : (is_red l && is_red r) = true
  · have h2 := h
    simp only [Bool.and_eq_true] at h2
    simp only [left_node, right_node, h, if_true, flip_step,
      color_flip_checked_of_red k d c h2.1 h2.2]
  · simp [h, flip_step]

theorem rotate_left_step_checked_eq (t : rbtree) :
    (if is_red (right t) then rotate_left_checked t else some t) =
      some (if is_red (right t) then rotate_left t else t) := by
  by_cases h : is_red (right t) = true
  · simp only [h, if_true, rotate_left_checked_of_red h]
  · simp [h]

theorem rotate_right_step_checked_eq (t : rbtree) :
    (if is_red (left t) && is_red (left (left t)) then rotate_right_checked t else some t) =
      some (if is_red (left t) && is_red (left (left t)) then rotate_right t else t) := by
  by_cases h : (is_red (left t) && is_red (left (left t))) = true
  · have h2 := h
    simp only [Bool.and_eq_true] at h2
    simp only [h, if_true, rotate_right_checked_of_red h2.1]
  · simp [h]

theorem rb_insert_checked_eq_aux (n : Nat) :
    ∀ t : rbtree, size t ≤ n → ∀ key data : Nat,
      rb_insert_checked t key data = some (rb_insert t key data) := by
  induction n with
  | zero =>
    intro t ht key data
    cases t with
    | nil => rw [rb_insert_checked, rb_insert]
    | node l k d c r => simp [size] at ht
  | succ n ih =>
    intro t ht key data
    cases t with
    | nil => rw [rb_insert_checked, rb_insert]
    | node l k d c r =>
      obtain ⟨l1, c1, r1, he, -, -, sl, sr⟩ := flip_step_node l k d c r
      simp only [size] at ht
      rw [rb_insert_checked, rb_insert_node]
      split
      · rename_i h1
        rw [flip_checked_eq] at h1
        cases h1
      · rename_i tree1 h1
        rw [flip_checked_eq] at h1
        cases h1
        rw [he]
        simp only [left_node, right_node, key_of_node, ih l1 (by omega) key data,
          ih r1 (by omega) key data, Option.map_some', set_left_node, set_right_node]
        split
        · rename_i h2
          split at h2 <;> cases h2
        · rename_i tree2 h2
          have h3 : tree2 = if key < k then node (rb_insert l1 key data) k d c1 r1
              else node l1 k d c1 (rb_insert r1 key data) := by
            by_cases hk : key < k
            · simp only [hk, if_true, Option.some.injEq] at h2 ⊢
              exact h2.symm
            · simp only [hk, if_false, Option.some.injEq] at h2 ⊢
              exact h2.symm
          subst h3
          rw [rotate_left_step_checked_eq]
          simp only [rotate_right_step_checked_eq, fix_step]

theorem rb_insert_checked_eq (t : rbtree) (key data : Nat) :
    rb_insert_checked t key data = some (rb_insert t key data) :=
  rb_insert_checked_eq_aux (size t) t (le_refl _) key data

/-! ## Position of the new pair in the in-order sequence -/

theorem fst_mem_keys {t : rbtree} {p : Nat × Nat} (h : p ∈ inorder t) : p.1 ∈ keys t :=
  List.mem_map_of_mem Prod.fst h

theorem inorder_rb_insert_split_aux (n : Nat) :
    ∀ t : rbtree, size t ≤ n → ∀ key data : Nat, (keys t).Sorted (· ≤ ·) →
      ∃ xs ys, inorder t = xs ++ ys ∧
        inorder (rb_insert t key data) = xs ++ (key, data) :: ys ∧
        (∀ p ∈ xs, p.1 ≤ key) ∧ (∀ p ∈ ys, key < p.1) := by
  induction n with
  | zero =>
    intro t ht key data _
    cases t with
    | nil => exact ⟨[], [], by simp [rb_insert_nil, inorder]⟩
    | node l k d c r => simp [size] at ht
  | succ n ih =>
    intro t ht key data hs
    cases t with
    | nil => exact ⟨[], [], by simp [rb_insert_nil, inorder]⟩
    | node l k d c r =>
      obtain ⟨l1, c1, r1, he, hl, hr, sl, sr⟩ := flip_step_node l k d c r
      rw [rb_insert_node, inorder_fix_step, he]
      simp only [size] at ht
      obtain ⟨h1, h2, h3, h4⟩ := sorted_keys_node.1 hs
      by_cases hk : key < k
      · rw [← keys_eq_of_inorder_eq hl] at h1
        obtain ⟨xs, ys, e1, e2, e3, e4⟩ := ih l1 (by omega) key data h1
        refine ⟨xs, ys ++ (k, d) :: inorder r, ?_, ?_, e3, ?_⟩
        · simp only [inorder, ← hl, e1, List.append_assoc]
        · simp only [hk, if_true, set_left_node, left_node, inorder, e2, hr,
            List.append_assoc, List.cons_append]
        · intro p hp
          rcases List.mem_append.1 hp with hp | hp
          · exact e4 p hp
          · rcases List.mem_cons.1 hp with rfl | hp
            · exact hk
            · exact lt_of_lt_of_le hk (h4 _ (fst_mem_keys hp))
      · rw [← keys_eq_of_inorder_eq hr] at h2
        obtain ⟨xs, ys, e1, e2, e3, e4⟩ := ih r1 (by omega) key data h2
        refine ⟨inorder l ++ (k, d) :: xs, ys, ?_, ?_, ?_, e4⟩
        · simp only [inorder, ← hr, e1, List.append_assoc, List.cons_append]
        · simp only [hk, if_false, set_right_node, right_node, inorder, e2, hl,
            List.append_assoc, List.cons_append]
        · intro p hp
          rcases List.mem_append.1 hp with hp | hp
          · exact le_trans (h3 _ (fst_mem_keys hp)) (not_lt.1 hk)
          · rcases List.mem_cons.1 hp with rfl | hp
            · exact not_lt.1 hk
            · exact e3 p hp

theorem inorder_rb_insert_split (t : rbtree) (key data : Nat) (h : (keys t).Sorted (· ≤ ·)) :
    ∃ xs ys, inorder t = xs ++ ys ∧
      inorder (rb_insert t key data) = xs ++ (key, data) :: ys ∧
      (∀ p ∈ xs, p.1 ≤ key) ∧ (∀ p ∈ ys, key < p.1) :=
  inorder_rb_insert_split_aux (size t) t (le_refl _) key data h

/-- Pairs with one given key come out of the tree in the order in which they
were inserted. -/
theorem filter_key_inorder_build (ops : List (Nat × Nat)) (k : Nat) :
    (inorder (build ops)).filter (fun p => p.1 = k) = ops.filter (fun p => p.1 = k) := by
  induction ops using List.reverseRecOn with
  | nil => simp [build, inorder]
  | append_singleton ops p ih =>
    obtain ⟨a, b⟩ := p
    obtain ⟨xs, ys, e1, e2, -, e4⟩ :=
      inorder_rb_insert_split (build ops) a b (sorted_keys_build ops)
    rw [build_append, e2, List.filter_append, List.filter_append, ← ih, e1,
      List.filter_append]
    by_cases hk : a = k
    · have hys : ys.filter (fun q => q.1 = k) = [] := by
        rw [List.filter_eq_nil_iff]
        intro q hq
        have := e4 q hq
        simp only [decide_eq_true_eq]
        omega
      simp [List.filter_cons, hk, hys]
    · simp [List.filter_cons, hk]

/-! ## Destruction -/

theorem rb_free_eq (t : rbtree) : ∀ log : List rbtree, rb_free t log = log ++ postorder t := by
  induction t with
  | nil => intro log; simp [rb_free, postorder]
  | node l k d c r ihl ihr =>
    intro log
    simp [rb_free, postorder, nasm_free, ihl, ihr, List.append_assoc]

theorem length_postorder (t : rbtree) : (postorder t).length = size t := by
  induction t with
  | nil => rfl
  | node l k d c r ihl ihr => simp [postorder, size, ihl, ihr]; omega

theorem postorder_perm_nodes (t : rbtree) : (postorder t).Perm (nodes t) := by
  induction t with
  | nil => exact List.Perm.refl _
  | node l k d c r ihl ihr =>
    simp only [postorder, nodes]
    exact (List.perm_append_singleton _ _).trans ((ihl.append ihr).cons _)

theorem rb_insert_duplicate :
    rb_insert (build [(10, 100)]) 10 101 = node (node nil 10 100 true nil) 10 101 true nil := by
  simp [build, rb_insert_node, rb_insert_nil, flip_step, fix_step]

theorem red_right_child_of_RB {n : rbtree} (h : RB n) (hr : is_red n = true) :
    is_red (right n) = false := by
  cases n with
  | nil => rfl
  | node l k d c r => exact (h.2 hr).2

/-! ## Properties of the specification, continued -/

/-- C11 as stated fails: after inserting key 10 (data 100) and then key 10
again (data 101), no node holding the older pair has the new pair in its right
subtree: the new node is the root and the older node is its left child. -/
theorem C11_right_subtree_counterexample :
    ¬ (∃ n ∈ nodes (rb_insert (build [(10, 100)]) 10 101),
        key_of n = 10 ∧ data_of n = 100 ∧ (10, 101) ∈ inorder (right n)) := by
  rw [rb_insert_duplicate]
  decide

/-- C11 (amended, duplicate placement): when a tree built from the empty tree
by insertions already holds key `k`, the pair created by inserting `k` again
comes, in the in-order sequence of the new tree, after every pair that already
had key `k` (and after nothing but pairs with key `≤ k`) and before every pair
with a larger key (and before nothing else); the rest of the sequence is
unchanged. -/
theorem C11_duplicate_after_older (ops : List (Nat × Nat)) (k v : Nat)
    (h : k ∈ keys (build ops)) :
    ∃ xs ys, inorder (build ops) = xs ++ ys ∧
      inorder (rb_insert (build ops) k v) = xs ++ (k, v) :: ys ∧
      (∃ q ∈ xs, q.1 = k) ∧
      (∀ p ∈ inorder (build ops), p.1 = k → p ∈ xs) ∧
      (∀ p ∈ inorder (build ops), k < p.1 → p ∈ ys) ∧
      (∀ p ∈ xs, p.1 ≤ k) ∧
      (∀ p ∈ ys, k < p.1) := by
  obtain ⟨xs, ys, e1, e2, e3, e4⟩ :=
    inorder_rb_insert_split (build ops) k v (sorted_keys_build ops)
  have hx : ∀ p ∈ inorder (build ops), p.1 = k → p ∈ xs := by
    intro p hp hk
    rw [e1] at hp
    rcases List.mem_append.1 hp with hp | hp
    · exact hp
    · exact absurd (e4 p hp) (by omega)
  have hy : ∀ p ∈ inorder (build ops), k < p.1 → p ∈ ys := by
    intro p hp hk
    rw [e1] at hp
    rcases List.mem_append.1 hp with hp | hp
    · exact absurd (e3 p hp) (by omega)
    · exact hp
  obtain ⟨q, hq, hqk⟩ := List.mem_map.1 h
  exact ⟨xs, ys, e1, e2, ⟨q, hx q hq hqk, hqk⟩, hx, hy, e3, e4⟩

/-- Witness for C11 (amended): keys 10 and 20 inserted, then 10 inserted
again; the new pair has to come between the older 10 and 20. -/
theorem C11_duplicate_after_older_witness :
    10 ∈ keys (build [(10, 100), (20, 200)]) ∧
    ∃ xs ys, inorder (build [(10, 100), (20, 200)]) = xs ++ ys ∧
      inorder (rb_insert (build [(10, 100), (20, 200)]) 10 101) = xs ++ (10, 101) :: ys ∧
      (∃ q ∈ xs, q.1 = 10) ∧
      (∀ p ∈ inorder (build [(10, 100), (20, 200)]), p.1 = 10 → p ∈ xs) ∧
      (∀ p ∈ inorder (build [(10, 100), (20, 200)]), 10 < p.1 → p ∈ ys) ∧
      (∀ p ∈ xs, p.1 ≤ 10) ∧
      (∀ p ∈ ys, 10 < p.1) :=
  have h0 : 10 ∈ keys (build [(10, 100), (20, 200)]) :=
    (mem_keys_build _ 10).2 (by decide)
  ⟨h0, C11_duplicate_after_older _ 10 101 h0⟩

/-- C12 (base case): `rb_insert` on the empty tree returns a single node that
holds the given key and data, is red, and has no left and no right child (the
child links being those of the block that `nasm_malloc` returns). -/
theorem C12_insert_empty (k v : Nat) :
    rb_insert nil k v = node nil k v true nil ∧
      key_of (rb_insert nil k v) = k ∧ data_of (rb_insert nil k v) = v ∧
      is_red (rb_insert nil k v) = true ∧
      left (rb_insert nil k v) = nil ∧ right (rb_insert nil k v) = nil ∧
      size (rb_insert nil k v) = 1 := by
  rw [rb_insert_nil]
  exact ⟨rfl, rfl, rfl, rfl, rfl, rfl, rfl⟩

/-- C13 (destruction in post-order): `rb_free` releases, after whatever was
released before, first every node of the left subtree, then every node of the
right subtree, then the node itself; the releases are the post-order listing
of the tree, as many as the tree has nodes, each node once; on the empty tree
nothing is released. -/
theorem C13_free_postorder :
    (∀ (t : rbtree) (log : List rbtree), rb_free t log = log ++ postorder t) ∧
    (∀ (l : rbtree) (k d : Nat) (c : Bool) (r : rbtree),
      rb_free (node l k d c r) [] = rb_free l [] ++ rb_free r [] ++ [node l k d c r]) ∧
    (∀ t : rbtree, (rb_free t []).length = size t ∧ (rb_free t []).Perm (nodes t)) ∧
    (∀ log : List rbtree, rb_free nil log = log) := by
  refine ⟨rb_free_eq, ?_, ?_, fun _ => rfl⟩
  · intro l k d c r
    simp [rb_free_eq, postorder]
  · intro t
    rw [rb_free_eq, List.nil_append]
    exact ⟨length_postorder t, postorder_perm_nodes t⟩

/-- C14 (rotations keep the in-order sequence): for a node `h` with a right
child, `rotate_left h` has the in-order sequence of `h`; for a node `g` with a
left child, `rotate_right g` has the in-order sequence of `g`. -/
theorem C14_rotations_keep_inorder (h g : rbtree) (hr : right h ≠ nil) (hl : left g ≠ nil) :
    (rotate_left_checked h = some (rotate_left h) ∧ inorder (rotate_left h) = inorder h) ∧
      (rotate_right_checked g = some (rotate_right g) ∧
        inorder (rotate_right g) = inorder g) := by
  constructor
  · cases h with
    | nil => exact absurd rfl hr
    | node a k d c x =>
      cases x with
      | nil => exact absurd rfl hr
      | node b k2 d2 c2 e => exact ⟨rfl, inorder_rotate_left _⟩
  · cases g with
    | nil => exact absurd rfl hl
    | node x k d c e =>
      cases x with
      | nil => exact absurd rfl hl
      | node a k2 d2 c2 b => exact ⟨rfl, inorder_rotate_right _⟩

/-- Witness for C14: the root with key 2 and children 1 and 3. -/
theorem C14_rotations_keep_inorder_witness :
    (right (node (node nil 1 11 true nil) 2 22 false (node nil 3 33 true nil)) ≠ nil ∧
      left (node (node nil 1 11 true nil) 2 22 false (node nil 3 33 true nil)) ≠ nil) ∧
    ((rotate_left_checked (node (node nil 1 11 true nil) 2 22 false (node nil 3 33 true nil)) =
          some (rotate_left (node (node nil 1 11 true nil) 2 22 false (node nil 3 33 true nil))) ∧
        inorder (rotate_left (node (node nil 1 11 true nil) 2 22 false (node nil 3 33 true nil)))
          = inorder (node (node nil 1 11 true nil) 2 22 false (node nil 3 33 true nil))) ∧
      (rotate_right_checked (node (node nil 1 11 true nil) 2 22 false (node nil 3 33 true nil)) =
          some (rotate_right (node (node nil 1 11 true nil) 2 22 false (node nil 3 33 true nil))) ∧
        inorder (rotate_right (node (node nil 1 11 true nil) 2 22 false (node nil 3 33 true nil)))
          = inorder (node (node nil 1 11 true nil) 2 22 false (node nil 3 33 true nil)))) :=
  ⟨⟨by decide, by decide⟩, C14_rotations_keep_inorder _ _ (by decide) (by decide)⟩

/-- C15 (shape and colours after a rotation): for a node `h` with right child
`x`, `rotate_left h` has the key and data of `x` at its root with the former
colour of `h`; its left child is `h`, red, with the left child of `h` on its
left and the former left child of `x` on its right; its right child is the
right child of `x`.  For a node `g` with left child `x`, `rotate_right g` is the
mirror image. -/
theorem C15_rotation_shape (h g : rbtree) (hr : right h ≠ nil) (hl : left g ≠ nil) :
    (rotate_left_checked h = some (rotate_left h) ∧
      key_of (rotate_left h) = key_of (right h) ∧
      data_of (rotate_left h) = data_of (right h) ∧
      red_of (rotate_left h) = red_of h ∧
      left (rotate_left h) = node (left h) (key_of h) (data_of h) true (left (right h)) ∧
      right (rotate_left h) = right (right h)) ∧
    (rotate_right_checked g = some (rotate_right g) ∧
      key_of (rotate_right g) = key_of (left g) ∧
      data_of (rotate_right g) = data_of (left g) ∧
      red_of (rotate_right g) = red_of g ∧
      left (rotate_right g) = left (left g) ∧
      right (rotate_right g) = node (right (left g)) (key_of g) (data_of g) true (right g)) := by
  constructor
  · cases h with
    | nil => exact absurd rfl hr
    | node a k d c x =>
      cases x with
      | nil => exact absurd rfl hr
      | node b k2 d2 c2 e => exact ⟨rfl, rfl, rfl, rfl, rfl, rfl⟩
  · cases g with
    | nil => exact absurd rfl hl
    | node x k d c e =>
      cases x with
      | nil => exact absurd rfl hl
      | node a k2 d2 c2 b => exact ⟨rfl, rfl, rfl, rfl, rfl, rfl⟩

/-- Witness for C15: a black node with key 2 over the red leaves 1 and 3. -/
theorem C15_rotation_shape_witness :
    (right (node (node nil 1 11 true nil) 2 22 false (node nil 3 33 true nil)) ≠ nil ∧
      left (node (node nil 1 11 true nil) 2 22 false (node nil 3 33 true nil)) ≠ nil) ∧
    rotate_left (node (node nil 1 11 true nil) 2 22 false (node nil 3 33 true nil)) =
      node (node (node nil 1 11 true nil) 2 22 true nil) 3 33 false nil ∧
    rotate_right (node (node nil 1 11 true nil) 2 22 false (node nil 3 33 true nil)) =
      node nil 1 11 false (node nil 2 22 true (node nil 3 33 true nil)) ∧
    red_of (rotate_left (node (node nil 1 11 true nil) 2 22 false (node nil 3 33 true nil))) =
      red_of (node (node nil 1 11 true nil) 2 22 false (node nil 3 33 true nil)) :=
  ⟨⟨by decide, by decide⟩, rfl, rfl,
    (C15_rotation_shape (node (node nil 1 11 true nil) 2 22 false (node nil 3 33 true nil))
      (node (node nil 1 11 true nil) 2 22 false (node nil 3 33 true nil))
      (by decide) (by decide)).1.2.2.2.1⟩

/-- C16 (the colour flip changes colours only): for a node `h` with both
children present, `color_flip h` negates the colour of `h`, of its left child
and of its right child; the keys and data of the three nodes and the four
subtrees below the children are unchanged; flipping twice gives `h` back. -/
theorem C16_color_flip_frame (h : rbtree) (hl : left h ≠ nil) (hr : right h ≠ nil) :
    color_flip_checked h = some (color_flip h) ∧
    (red_of (color_flip h) = !red_of h ∧
      red_of (left (color_flip h)) = !red_of (left h) ∧
      red_of (right (color_flip h)) = !red_of (right h)) ∧
    (key_of (color_flip h) = key_of h ∧ data_of (color_flip h) = data_of h ∧
      key_of (left (color_flip h)) = key_of (left h) ∧
      data_of (left (color_flip h)) = data_of (left h) ∧
      key_of (right (color_flip h)) = key_of (right h) ∧
      data_of (right (color_flip h)) = data_of (right h)) ∧
    (left (left (color_flip h)) = left (left h) ∧
      right (left (color_flip h)) = right (left h) ∧
      left (right (color_flip h)) = left (right h) ∧
      right (right (color_flip h)) = right (right h)) ∧
    color_flip (color_flip h) = h := by
  cases h with
  | nil => exact absurd rfl hl
  | node x k d c y =>
    cases x with
    | nil => exact absurd rfl hl
    | node a k1 d1 c1 b =>
      cases y with
      | nil => exact absurd rfl hr
      | node e k2 d2 c2 f =>
        refine ⟨rfl, ⟨rfl, rfl, rfl⟩, ⟨rfl, rfl, rfl, rfl, rfl, rfl⟩, ⟨rfl, rfl, rfl, rfl⟩, ?_⟩
        simp

/-- Witness for C16: a black node with key 2 over the red leaves 1 and 3. -/
theorem C16_color_flip_frame_witness :
    (left (node (node nil 1 11 true nil) 2 22 false (node nil 3 33 true nil)) ≠ nil ∧
      right (node (node nil 1 11 true nil) 2 22 false (node nil 3 33 true nil)) ≠ nil) ∧
    color_flip (node (node nil 1 11 true nil) 2 22 false (node nil 3 33 true nil)) =
      node (node nil 1 11 false nil) 2 22 true (node nil 3 33 false nil) ∧
    color_flip (color_flip
        (node (node nil 1 11 true nil) 2 22 false (node nil 3 33 true nil))) =
      node (node nil 1 11 true nil) 2 22 false (node nil 3 33 true nil) :=
  ⟨⟨by decide, by decide⟩, rfl,
    (C16_color_flip_frame (node (node nil 1 11 true nil) 2 22 false (node nil 3 33 true nil))
      (by decide) (by decide)).2.2.2.2⟩

/-- C17 (stable insertion position): for a tree built from the empty tree by
insertions, the in-order sequence after inserting `(k, v)` is the old sequence
with `(k, v)` put in between its pairs with key `≤ k`, which all come first,
and its pairs with key `> k`; hence the pairs with any one key stand in the
in-order sequence in the order in which they were inserted. -/
theorem C17_stable_position :
    (∀ (ops : List (Nat × Nat)) (k v : Nat),
      ∃ xs ys, inorder (build ops) = xs ++ ys ∧
        inorder (rb_insert (build ops) k v) = xs ++ (k, v) :: ys ∧
        (∀ p ∈ xs, p.1 ≤ k) ∧ (∀ p ∈ ys, k < p.1)) ∧
    (∀ (ops : List (Nat × Nat)) (k : Nat),
      (inorder (build ops)).filter (fun p => p.1 = k) = ops.filter (fun p => p.1 = k)) :=
  ⟨fun ops k v => inorder_rb_insert_split (build ops) k v (sorted_keys_build ops),
    filter_key_inorder_build⟩

/-- C18 (2-3-4 shape): in every tree built from the empty tree by insertions,
a node whose right child is red has a red left child, and no red node other
than the root has a red child, left or right. -/
theorem C18_shape_234 (ops : List (Nat × Nat)) :
    (∀ n ∈ nodes (build ops), is_red (right n) = true → is_red (left n) = true) ∧
    (∀ n ∈ nodes (left (build ops)) ++ nodes (right (build ops)),
      is_red n = true → is_red (left n) = false ∧ is_red (right n) = false) :=
  ⟨fun _ hn hr => red_right_of_Top (Top_of_mem_nodes (Top_build ops) hn) hr,
    fun _ hn hr => ⟨red_left_of_RB (RB_of_mem_nodes_below (Top_build ops) hn) hr,
      red_right_child_of_RB (RB_of_mem_nodes_below (Top_build ops) hn) hr⟩⟩

/-- C19 (root colour after an insertion): for a non-empty tree of any shape,
the root of the tree returned by `rb_insert` has the negated colour of the old
root when both children of the old root were red, and the colour of the old
root otherwise; a rotation leaves the colour at the root position as it was;
the root of a tree returned by `rb_insert` can be red. -/
theorem C19_root_colour :
    (∀ (l : rbtree) (k0 d : Nat) (c : Bool) (r : rbtree) (k v : Nat),
      rb_insert (node l k0 d c r) k v ≠ nil ∧
      is_red (rb_insert (node l k0 d c r) k v) = (if is_red l && is_red r then !c else c)) ∧
    (∀ h : rbtree, right h ≠ nil → is_red (rotate_left h) = is_red h) ∧
    (∀ h : rbtree, left h ≠ nil → is_red (rotate_right h) = is_red h) ∧
    (∀ k v : Nat, is_red (rb_insert nil k v) = true) ∧
    is_red (build [(1, 11), (2, 22)]) = true := by
  refine ⟨fun l k0 d c r k v => ⟨?_, ?_⟩, fun h _ => is_red_rotate_left h,
    fun h _ => is_red_rotate_right h, fun k v => by rw [rb_insert_nil]; rfl,
    by rw [build_one_two]; rfl⟩
  · intro hnil
    have hs := size_rb_insert (node l k0 d c r) k v
    rw [hnil] at hs
    simp [size] at hs
  · rw [is_red_rb_insert_node]
    by_cases hb : (is_red l && is_red r) = true
    · simp [flip_step, hb]
    · simp [flip_step, hb]

/-- C20 (the helpers are never applied where they would fault): for a tree of
any shape and colouring, `rb_insert` over the helpers that return `none` on a
null dereference returns a tree, the one that `rb_insert` returns; those
helpers do return `none` on a node that lacks the child they dereference. -/
theorem C20_helpers_never_fault :
    (∀ (t : rbtree) (k v : Nat), rb_insert_checked t k v = some (rb_insert t k v)) ∧
    (∀ (a : rbtree) (k d : Nat) (c : Bool), rotate_left_checked (node a k d c nil) = none) ∧
    (∀ (k d : Nat) (c : Bool) (e : rbtree), rotate_right_checked (node nil k d c e) = none) ∧
    (∀ (k d : Nat) (c : Bool) (r : rbtree), color_flip_checked (node nil k d c r) = none) ∧
    (∀ (l : rbtree) (k d : Nat) (c : Bool), color_flip_checked (node l k d c nil) = none) := by
  refine ⟨rb_insert_checked_eq, fun _ _ _ _ => rfl, fun _ _ _ _ => rfl,
    fun _ _ _ _ => rfl, fun l _ _ _ => ?_⟩
  cases l <;> rfl

end RBTree
